import Mathlib

/-!
Verification of the rules engine of the falling-block game in `src/tetris.py`.

The Python program is shallowly embedded: a piece (`Block`) is a boolean
cell matrix together with an integer board anchor and an `current` flag;
the sprite group (`BlocksGroup`) becomes a `GameState` holding the ordered
list of blocks plus score / level bookkeeping.  Pixel-level quantities are
translated to cell units: with `TILE_SIZE = 30`, `GRID_WIDTH = 300` and
`GRID_HEIGHT = 600`, `rect.right > GRID_WIDTH` is `x + ncols > 10`,
`rect.bottom > GRID_HEIGHT` is `y + nrows > 20`, and mask overlap of two
sprites is overlap of their occupied cells (each tile is drawn strictly
inside its cell, so two tiles intersect exactly when they share a cell).
`BottomReached` / `TopReached` exceptions become explicit result values,
and the unguarded list indexing `LEVEL_SPEEDS[self.level - 1]` becomes a
lookup that reports an index error instead of raising.
-/

namespace Tetris

/-- A piece's cell matrix: a list of rows of booleans (row-major), as the
`struct` numpy array of the source. -/
abbrev Mat := List (List Bool)

/-- Number of rows of a matrix. -/
def nrows (m : Mat) : Nat := m.length

/-- Number of columns of a matrix (length of the first row; the source's
numpy arrays are rectangular). -/
def ncols (m : Mat) : Nat := (m.head?.map List.length).getD 0

/-- The matrix is rectangular: every row has length `ncols m`. -/
def IsRect (m : Mat) : Prop := ∀ row ∈ m, row.length = ncols m

instance (m : Mat) : Decidable (IsRect m) := by
  unfold IsRect; infer_instance

/-- Cell lookup, `false` outside the matrix. -/
def cellAt (m : Mat) (i j : Nat) : Bool := ((m.get? i).bind (·.get? j)).getD false

/-- The matrix has at least one `true` cell (`struct.any()` in the source). -/
def anyCell (m : Mat) : Bool := m.any (fun row => row.any id)

/-- Local coordinates `(row, col)` of the true cells of a matrix. -/
def truePoints (m : Mat) : List (Nat × Nat) :=
  m.enum.flatMap (fun p => p.2.enum.filterMap
    (fun q => if q.2 then some (p.1, q.1) else none))

/-- One block (sprite) of the game: its cell matrix `struct`, its board
anchor `(x, y)` in cell units, and the `current` (active) flag. -/
structure Block where
  struct : Mat
  x : Int
  y : Int
  current : Bool
deriving Repr, DecidableEq

/-- Board cells `(column, row)` occupied by a block at its current anchor. -/
def boardCells (b : Block) : List (Int × Int) :=
  (truePoints b.struct).map (fun p => (b.x + p.2, b.y + p.1))

/-- Two distinct sprites' masks overlap: they share an occupied board cell
(`pygame.sprite.collide_mask` on the tile images). -/
def overlaps (a b : Block) : Bool :=
  (boardCells a).any (fun p => (boardCells b).contains p)

/-- `Block.collide(block, group)`: the block's mask overlaps some *other*
block of the group.  The source skips the block itself by object identity;
here the caller passes the list of the other blocks. -/
def collide (b : Block) (others : List Block) : Bool :=
  others.any (fun o => overlaps b o)

/-- `Block._is_out_of_bounds`, in cell units:
`rect.right > GRID_WIDTH or rect.left < 0 or rect.bottom > GRID_HEIGHT`.
The source tests only the right, left and bottom edges of the sprite
rectangle; there is no top test. -/
def isOutOfBounds (b : Block) : Bool :=
  decide (b.x + ncols b.struct > 10) || decide (b.x < 0) ||
    decide (b.y + nrows b.struct > 20)

/-- Outcome of `Block.move`: the silent success, the silent sideways
revert, and the `BottomReached` exception of the source. -/
inductive MoveResult where
  | moved
  | blocked
  | bottomReached
deriving Repr, DecidableEq

/-- `Block.move(dx, dy, group)`: tentatively displace the anchor; if the
displaced block collides or is out of bounds, revert, and when `dy > 0`
clear `current` and raise `BottomReached` (here: return `bottomReached`). -/
def move (b : Block) (others : List Block) (dx dy : Int) : Block × MoveResult :=
  let m : Block := { b with x := b.x + dx, y := b.y + dy }
  if collide m others || isOutOfBounds m then
    if dy > 0 then ({ b with current := false }, .bottomReached)
    else (b, .blocked)
  else (m, .moved)

/-- `np.rot90`: rotate 90° counter-clockwise.  Row `i` of the result is
column `ncols - 1 - i` of the input: `rot90 m i j = m j (ncols - 1 - i)`. -/
def rot90 (m : Mat) : Mat :=
  ((List.range (ncols m)).map (fun c => m.map (fun row => (row.get? c).getD false))).reverse

/-- `np.flip(struct, 0)`: mirror across the horizontal axis. -/
def flipX (m : Mat) : Mat := m.reverse

/-- The while-condition of `Block.rotate`'s placement loop. -/
def rotCond (b : Block) (others : List Block) : Bool :=
  isOutOfBounds b || collide b others

/-- One pass of the body of `Block.rotate`'s placement loop: shift left on
right overflow, right on left overflow, up on bottom overflow.  When the
block is in bounds but colliding, no branch fires and the block is
returned unchanged — the loop then makes no progress. -/
def rotNudge (b : Block) : Block :=
  if b.x + ncols b.struct > 10 then { b with x := b.x - 1 }
  else if b.x < 0 then { b with x := b.x + 1 }
  else if b.y + nrows b.struct > 20 then { b with y := b.y - 1 }
  else b

/-- The placement-resolution loop of `Block.rotate`, fuelled: `none` means
the loop has not exited within `fuel` iterations. -/
def rotGo : Nat → Block → List Block → Option Block
  | 0, _, _ => none
  | fuel + 1, b, others =>
    if rotCond b others then rotGo fuel (rotNudge b) others else some b

/-- `Block.rotate(group)`: the sprite image, rectangle and mask are rotated
before the placement loop runs (the numpy `struct` only afterwards), so the
loop sees the rotated footprint; here the matrix is rotated up front. -/
def rotate (fuel : Nat) (b : Block) (others : List Block) : Option Block :=
  rotGo fuel { b with struct := rot90 b.struct } others

/-! The seven shape matrices of the source. -/

def squareStruct : Mat := [[true, true], [true, true]]
def tStruct : Mat := [[true, true, true], [false, true, false]]
def lineStruct : Mat := [[true], [true], [true], [true]]
def lStruct : Mat := [[true, true], [true, false], [true, false]]
def zStruct : Mat := [[false, true], [true, true], [true, false]]
def reverseLStruct : Mat := [[true, true], [false, true], [false, true]]
def reverseZStruct : Mat := [[true, false], [true, true], [false, true]]

/-- `Block.__init__` followed by `_draw()`: the spawn anchor is the fixed
`(x=4, y=0)`; the random initial rotation and flip are the two booleans. -/
def mkBlock (shape : Mat) (rotBit flipBit : Bool) : Block :=
  let s1 := if rotBit then rot90 shape else shape
  let s2 := if flipBit then flipX s1 else s1
  { struct := s2, x := 4, y := 0, current := true }

/-! ## The sprite group: game state, derived grid, line clearance -/

def LEVEL_SPEEDS : List Nat := [800, 600, 450, 300, 200]
def LINES_PER_LEVEL : Nat := 10

/-- The state owned by `BlocksGroup`: the ordered block list (insertion
order, as the sprite group preserves it), plus score/level bookkeeping.
The `next_block` preview and pygame timers carry no rule logic and are
not modelled. -/
structure GameState where
  blocks : List Block
  score : Nat
  lines_completed : Nat
  level : Nat
  speed : Nat
deriving Repr, DecidableEq

/-- A grid cell: `none` for the `0` filler, `some (block index, y_offset)`
for an occupied cell (the source stores the block object itself; the index
into the current block list plays its role here). -/
abbrev Grid := List (List (Option (Nat × Nat)))

/-- `BlocksGroup._reset_grid`: 20 rows of 10 empty cells. -/
def emptyGrid : Grid := List.replicate 20 (List.replicate 10 none)

/-- Write one grid cell.  The source indexes `self.grid[rowid][colid]`
directly; the engine only ever writes cells of in-bounds blocks, so the
guard never fires on the states the theorems below speak about. -/
def gridSet (g : Grid) (r c : Int) (v : Nat × Nat) : Grid :=
  if 0 ≤ r ∧ r < 20 ∧ 0 ≤ c ∧ c < 10 then
    g.set r.toNat (((g.get? r.toNat).getD []).set c.toNat (some v))
  else g

/-- `BlocksGroup.update_grid`: rebuild the grid from the block list; every
true cell of block `idx` writes `(idx, y_offset)` at its board cell. -/
def updateGrid (blocks : List Block) : Grid :=
  blocks.enum.foldl (fun g p =>
    (truePoints p.2.struct).foldl (fun g q =>
      gridSet g (p.2.y + q.1) (p.2.x + q.2) (p.1, q.1)) g) emptyGrid

/-- `all(row)`: every cell of grid row `r` is occupied. -/
def fullRow (g : Grid) (r : Nat) : Bool := ((g.get? r).getD []).all (·.isSome)

/-- The scan `for i, row in enumerate(self.grid[::-1])`: the first full
row counted from the bottom, as a board row index. -/
def firstFullRowFromBottom (g : Grid) : Option Nat :=
  ((List.range 20).find? (fun i => fullRow g (19 - i))).map (fun i => 19 - i)

/-- `OrderedDict.fromkeys`: drop duplicates keeping first occurrences. -/
def dedupFirst (l : List (Nat × Nat)) : List (Nat × Nat) :=
  l.foldl (fun acc p => if acc.contains p then acc else acc ++ [p]) []

/-- The `affected_blocks` of a completed row: the distinct
`(block, y_offset)` entries of that grid row. -/
def affectedOf (g : Grid) (r : Nat) : List (Nat × Nat) :=
  dedupFirst (((g.get? r).getD []).filterMap id)

/-- `np.delete(struct, y_offset, 0)`: remove one row. -/
def deleteRow (r : Nat) (m : Mat) : Mat := m.eraseIdx r

/-- Column `c` is entirely empty (`col.max() == 0`). -/
def colEmpty (m : Mat) (c : Nat) : Bool := m.all (fun row => !((row.get? c).getD false))

/-- The first entirely-empty column, scanning left to right: the column at
which the loop of `del_empty_columns` breaks. -/
def firstEmptyCol (m : Mat) : Option Nat := (List.range (ncols m)).find? (colEmpty m)

/-- `np.delete(arr, colid, 1)`: remove one column. -/
def deleteCol (c : Nat) (m : Mat) : Mat := m.map (·.eraseIdx c)

/-- The recursion of `del_empty_columns`.  Scanning left to right, the
mutable `_keep_counting` is still true at the first empty column `c`
exactly when no nonzero column preceded it, i.e. when `c = 0`; the source
then increments `_x_offset`, deletes the column and restarts.  The fuel
only bounds the number of column deletions, so `ncols` fuel is enough. -/
def delECAux : Nat → Mat → Nat → Bool → Mat × Nat
  | 0, m, off, _ => (m, off)
  | fuel + 1, m, off, kc =>
    match firstEmptyCol m with
    | none => (m, off)
    | some c =>
      let kc2 := kc && c == 0
      delECAux fuel (deleteCol c m) (if kc2 then off + 1 else off) kc2

/-- `del_empty_columns(arr)`: remove the entirely-empty columns, returning
the compacted matrix and the x offset (the number of removed *leading*
empty columns). -/
def del_empty_columns (m : Mat) : Mat × Nat := delECAux (ncols m) m 0 true

/-- The per-block body of the `affected_blocks` loop: delete the local row,
then either compact the columns and shift `x`, or mark the block for
removal (second component collects the removed indices). -/
def processAffected (blocks : List Block) (aff : List (Nat × Nat)) :
    List Block × List Nat :=
  aff.foldl (fun acc p =>
    match acc.1.get? p.1 with
    | none => acc
    | some b =>
      let s := deleteRow p.2 b.struct
      if anyCell s then
        let r := del_empty_columns s
        (acc.1.set p.1 { b with struct := r.1, x := b.x + (r.2 : Int) }, acc.2)
      else (acc.1, p.1 :: acc.2)) (blocks, [])

/-- Apply the `self.remove(block)` calls: drop the listed indices, keeping
the order of the remaining blocks. -/
def removeIdxs (bs : List Block) (rem : List Nat) : List Block :=
  (bs.enum.filter (fun p => !rem.contains p.1)).map (·.2)

/-- An escape hatch of the engine: the unguarded `LEVEL_SPEEDS[...]`
indexing (`indexError`), or exhaustion of the recursion fuel. -/
inductive EngineError where
  | indexError
  | outOfFuel
deriving Repr, DecidableEq

/-- The level-up check of `_check_line_completion`: on reaching
`LINES_PER_LEVEL`, reset the counter, advance the level and look the new
speed up — `LEVEL_SPEEDS[self.level - 1]`, unguarded in the source. -/
def levelCheck (s : GameState) : Except EngineError GameState :=
  if LINES_PER_LEVEL ≤ s.lines_completed then
    let lv := s.level + 1
    match LEVEL_SPEEDS.get? (lv - 1) with
    | none => .error .indexError
    | some sp => .ok { s with lines_completed := 0, level := lv, speed := sp }
  else .ok s

/-- The `while True: block.move_down` loop of the settling pass: pull one
block down until `BottomReached`.  A block can descend at most 20 cells,
so fuel 21 always suffices. -/
def dropLoop : Nat → Block → List Block → Block
  | 0, b, _ => b
  | fuel + 1, b, others =>
    match move b others 0 1 with
    | (b2, .moved) => dropLoop fuel b2 others
    | (b2, _) => b2

/-- The settling pass: every non-current block, in group order, is pulled
down as far as it goes, against the other blocks at their then-current
positions. -/
def gravityPass (blocks : List Block) : List Block :=
  (List.range blocks.length).foldl (fun bs i =>
    match bs.get? i with
    | none => bs
    | some b => if b.current then bs else bs.set i (dropLoop 21 b (bs.eraseIdx i))) blocks

/-- Everything `_check_line_completion` does for the one completed row it
found: score and line accounting, row deletion and column compaction per
affected block, removal of emptied blocks, the level-up check, and the
settling pass. -/
def singleClear (s : GameState) (r : Nat) : Except EngineError GameState :=
  let g := updateGrid s.blocks
  let s1 : GameState :=
    { s with score := s.score + 5, lines_completed := s.lines_completed + 1 }
  let pr := processAffected s1.blocks (affectedOf g r)
  match levelCheck { s1 with blocks := removeIdxs pr.1 pr.2 } with
  | .error e => .error e
  | .ok s2 => .ok { s2 with blocks := gravityPass s2.blocks }

/-- `BlocksGroup._check_line_completion`: find the first full row from the
bottom; if there is one, clear it and re-scan the updated grid (the
source recurses after `self.update_grid()`; the grid is recomputed at
entry here, which reads the same state). -/
def checkLineCompletion : Nat → GameState → Except EngineError GameState
  | 0, _ => .error .outOfFuel
  | fuel + 1, s =>
    match firstFullRowFromBottom (updateGrid s.blocks) with
    | none => .ok s
    | some r =>
      match singleClear s r with
      | .error e => .error e
      | .ok s1 => checkLineCompletion fuel s1

/-- How `_create_new_block` ends: normally, with the `TopReached` raise,
or with an engine error escaping. -/
inductive SpawnStatus where
  | spawned
  | topReached
  | crashed (e : EngineError)
deriving Repr, DecidableEq

/-- `BlocksGroup._create_new_block`, parameterized by the block to spawn
(`self.next_block or get_random_block()`).  The collision test happens
before any mutation, so on `TopReached` the state is returned untouched;
otherwise the block is added and the clearance engine and the speed
lookup run. -/
def create_new_block (fuel : Nat) (s : GameState) (nb : Block) :
    GameState × SpawnStatus :=
  if collide nb s.blocks then (s, .topReached)
  else
    let s1 : GameState := { s with blocks := s.blocks ++ [nb] }
    match checkLineCompletion fuel s1 with
    | .error e => (s1, .crashed e)
    | .ok s2 =>
      match LEVEL_SPEEDS.get? (s2.level - 1) with
      | none => (s2, .crashed .indexError)
      | some sp => ({ s2 with speed := sp }, .spawned)

/-! ## Basic lemmas about cells, occupancy and the two predicates -/

theorem mem_truePoints {m : Mat} {i j : Nat} :
    (i, j) ∈ truePoints m ↔ cellAt m i j = true := by
  simp only [truePoints, cellAt, List.mem_flatMap, List.mem_filterMap,
    List.mk_mem_enum_iff_getElem?, List.get?_eq_getElem?, Prod.exists]
  constructor
  · rintro ⟨a, row, hrow, b, v, hv, h⟩
    split at h
    · cases h; simp_all
    · cases h
  · intro h
    rcases ho : m[i]? with _ | row
    · simp [ho] at h
    rcases hr : row[j]? with _ | v
    · simp [ho, hr] at h
    refine ⟨i, row, by simpa [List.mk_mem_enum_iff_getElem?] using ho, j, v, hr, ?_⟩
    simp only [ho, hr] at h
    simp_all

theorem mem_boardCells {b : Block} {p : Int × Int} :
    p ∈ boardCells b ↔
      ∃ i j, cellAt b.struct i j = true ∧ p = (b.x + j, b.y + i) := by
  simp only [boardCells, List.mem_map, Prod.exists]
  constructor
  · rintro ⟨i, j, hm, rfl⟩
    exact ⟨i, j, mem_truePoints.1 hm, rfl⟩
  · rintro ⟨i, j, hc, rfl⟩
    exact ⟨i, j, mem_truePoints.2 hc, rfl⟩

theorem anyCell_iff {m : Mat} :
    anyCell m = true ↔ ∃ i j, cellAt m i j = true := by
  simp only [anyCell, List.any_eq_true, id_eq]
  constructor
  · rintro ⟨row, hrow, v, hv, rfl⟩
    rcases List.getElem?_of_mem hrow with ⟨i, hi⟩
    rcases List.getElem?_of_mem hv with ⟨j, hj⟩
    exact ⟨i, j, by simp [cellAt, List.get?_eq_getElem?, hi, hj]⟩
  · rintro ⟨i, j, hc⟩
    rcases ho : m[i]? with _ | row
    · simp [cellAt, List.get?_eq_getElem?, ho] at hc
    rcases hr : row[j]? with _ | v
    · simp [cellAt, List.get?_eq_getElem?, ho, hr] at hc
    simp only [cellAt, List.get?_eq_getElem?, ho, hr] at hc
    refine ⟨row, List.getElem?_mem ho, v, List.getElem?_mem hr, by simp_all⟩

theorem cellAt_row_lt {m : Mat} {i j : Nat} (h : cellAt m i j = true) :
    i < nrows m := by
  by_contra hlt
  simp only [nrows, not_lt] at hlt
  have : m[i]? = none := List.getElem?_eq_none hlt
  simp [cellAt, List.get?_eq_getElem?, this] at h

theorem cellAt_col_lt {m : Mat} {i j : Nat} (hrect : IsRect m)
    (h : cellAt m i j = true) : j < ncols m := by
  rcases ho : m[i]? with _ | row
  · simp [cellAt, List.get?_eq_getElem?, ho] at h
  rcases hr : row[j]? with _ | v
  · simp [cellAt, List.get?_eq_getElem?, ho, hr] at h
  have hj : j < row.length := by
    by_contra hlt
    rw [List.getElem?_eq_none (by omega)] at hr; cases hr
  rw [hrect row (List.getElem?_mem ho)] at hj
  exact hj

theorem colEmpty_eq_false_iff {m : Mat} {c : Nat} :
    colEmpty m c = false ↔ ∃ i, cellAt m i c = true := by
  rw [colEmpty, List.all_eq_false]
  constructor
  · rintro ⟨row, hrow, hv⟩
    rcases List.getElem?_of_mem hrow with ⟨i, hi⟩
    refine ⟨i, ?_⟩
    simp only [cellAt, List.get?_eq_getElem?, hi]
    simpa using hv
  · rintro ⟨i, hc⟩
    rcases ho : m[i]? with _ | row
    · simp [cellAt, List.get?_eq_getElem?, ho] at hc
    refine ⟨row, List.getElem?_mem ho, ?_⟩
    simp only [cellAt, List.get?_eq_getElem?, ho] at hc
    simp_all

theorem overlaps_iff {a b : Block} :
    overlaps a b = true ↔ ∃ p, p ∈ boardCells a ∧ p ∈ boardCells b := by
  simp [overlaps, List.any_eq_true, List.elem_iff]

theorem collide_iff {b : Block} {others : List Block} :
    collide b others = true ↔ ∃ o ∈ others, overlaps b o = true := by
  simp [collide, List.any_eq_true]

/-! ## Claim C5: the out-of-bounds predicate -/

/-- Modelled from the spec for comparison with the code (claim C5): the
occupied extent exceeds the column range `[0,10)` or the row range
`[0,20)` on any side — left, right, bottom, or top. -/
def specOutOfBounds (b : Block) : Bool :=
  (boardCells b).any (fun p =>
    decide (p.1 < 0) || decide (10 ≤ p.1) || decide (p.2 < 0) || decide (20 ≤ p.2))

/-- The spec's predicate with the top side removed: left, right and bottom
overflow of the occupied extent only. -/
def specOutOfBoundsLRB (b : Block) : Bool :=
  (boardCells b).any (fun p =>
    decide (p.1 < 0) || decide (10 ≤ p.1) || decide (20 ≤ p.2))

/-- C5, counterexample: a piece whose occupied cell sits above the board
(row `-1`) exceeds the row range on the top side, yet
`Block._is_out_of_bounds` does not report it — the source never tests the
top edge. -/
theorem c5_counterexample :
    isOutOfBounds { struct := [[true]], x := 4, y := -1, current := true } = false ∧
    specOutOfBounds { struct := [[true]], x := 4, y := -1, current := true } = true := by
  decide

/-- C5 (amended): for a piece whose matrix is rectangular with no
entirely-empty row or column (as every piece the game produces is),
`_is_out_of_bounds` returns true iff the occupied extent exceeds the
column range `[0,10)` on the left or right or the row range `[0,20)` at
the bottom; overflow past the top is not detected. -/
theorem c5_out_of_bounds (b : Block) (hrect : IsRect b.struct)
    (hne : anyCell b.struct = true)
    (hcols : ∀ c < ncols b.struct, colEmpty b.struct c = false)
    (hrows : ∀ row ∈ b.struct, row.any id = true) :
    isOutOfBounds b = specOutOfBoundsLRB b := by
  rcases anyCell_iff.1 hne with ⟨i0, j0, hc0⟩
  have hnr : nrows b.struct = List.length b.struct := rfl
  have hr1 : 1 ≤ nrows b.struct := by have := cellAt_row_lt hc0; omega
  have hc1 : 1 ≤ ncols b.struct := by have := cellAt_col_lt hrect hc0; omega
  have hspec : specOutOfBoundsLRB b = true ↔
      ∃ p ∈ boardCells b, p.1 < 0 ∨ 10 ≤ p.1 ∨ 20 ≤ p.2 := by
    simp [specOutOfBoundsLRB, List.any_eq_true, or_assoc]
  have hood : isOutOfBounds b = true ↔
      (10 : Int) < b.x + ncols b.struct ∨ b.x < 0 ∨ (20 : Int) < b.y + nrows b.struct := by
    simp [isOutOfBounds, or_assoc]
  rw [Bool.eq_iff_iff, hood, hspec]
  constructor
  · rintro (h | h | h)
    · rcases colEmpty_eq_false_iff.1 (hcols (ncols b.struct - 1) (by omega)) with ⟨i, hc⟩
      refine ⟨(b.x + (ncols b.struct - 1 : Nat), b.y + i),
        mem_boardCells.2 ⟨i, _, hc, rfl⟩, Or.inr (Or.inl ?_)⟩
      have : ((ncols b.struct - 1 : Nat) : Int) = (ncols b.struct : Int) - 1 := by omega
      omega
    · rcases colEmpty_eq_false_iff.1 (hcols 0 (by omega)) with ⟨i, hc⟩
      refine ⟨(b.x + (0 : Nat), b.y + i), mem_boardCells.2 ⟨i, _, hc, rfl⟩, Or.inl ?_⟩
      simpa using h
    · rcases ho : b.struct[nrows b.struct - 1]? with _ | row
      · exfalso
        rw [List.getElem?_eq_none_iff] at ho
        omega
      have hrow := hrows row (List.getElem?_mem ho)
      rcases List.any_eq_true.1 hrow with ⟨v, hvmem, hv⟩
      rcases List.getElem?_of_mem hvmem with ⟨j, hj⟩
      have hcell : cellAt b.struct (nrows b.struct - 1) j = true := by
        simp only [cellAt, List.get?_eq_getElem?, ho, hj]
        simp_all
      refine ⟨(b.x + j, b.y + (nrows b.struct - 1 : Nat)),
        mem_boardCells.2 ⟨_, j, hcell, rfl⟩, Or.inr (Or.inr ?_)⟩
      have : ((nrows b.struct - 1 : Nat) : Int) = (nrows b.struct : Int) - 1 := by omega
      omega
  · rintro ⟨p, hp, hcase⟩
    rcases mem_boardCells.1 hp with ⟨i, j, hc, rfl⟩
    have hi : i < nrows b.struct := cellAt_row_lt hc
    have hj : j < ncols b.struct := cellAt_col_lt hrect hc
    rcases hcase with h | h | h
    · exact Or.inr (Or.inl (by omega))
    · exact Or.inl (by simp only at h; omega)
    · exact Or.inr (Or.inr (by simp only at h; omega))

/-- C5 witness: the amended equivalence applied to a concrete in-range
piece touching the right wall. -/
theorem c5_out_of_bounds_witness :
    isOutOfBounds { struct := [[true, true]], x := 9, y := 5, current := true } =
      specOutOfBoundsLRB { struct := [[true, true]], x := 9, y := 5, current := true } :=
  c5_out_of_bounds _ (by decide) (by decide) (by decide) (by decide)

/-! ## Claim C6: atomicity of `Block.move` -/

/-- C6: `Block.move` is atomic on failure.  If the tentatively displaced
piece collides or is out of bounds, the anchor (and matrix) are exactly
what they were, and the outcome is the `BottomReached` raise when
`dy > 0` and the silent blocked revert otherwise; if the displaced piece
is legal, the anchor is the prior anchor translated by `(dx, dy)` and the
outcome is a plain move. -/
theorem c6_move_atomic (b : Block) (others : List Block) (dx dy : Int) :
    ((collide { b with x := b.x + dx, y := b.y + dy } others
        || isOutOfBounds { b with x := b.x + dx, y := b.y + dy }) = true →
      (move b others dx dy).1.x = b.x ∧ (move b others dx dy).1.y = b.y ∧
      (move b others dx dy).1.struct = b.struct ∧
      (move b others dx dy).2 =
        (if 0 < dy then MoveResult.bottomReached else MoveResult.blocked)) ∧
    ((collide { b with x := b.x + dx, y := b.y + dy } others
        || isOutOfBounds { b with x := b.x + dx, y := b.y + dy }) = false →
      (move b others dx dy).1 = { b with x := b.x + dx, y := b.y + dy } ∧
      (move b others dx dy).2 = MoveResult.moved) := by
  unfold move
  constructor
  · intro h
    simp only [h, if_true]
    by_cases hdy : 0 < dy <;> simp [hdy]
  · intro h
    simp [h]

/-- C6 witness: a piece one cell above the floor, moved down into the
floor: the anchor is reverted and the bottom signal raised. -/
theorem c6_move_atomic_witness :
    (move { struct := [[true]], x := 3, y := 19, current := true } [] 0 1).1.x = 3 ∧
    (move { struct := [[true]], x := 3, y := 19, current := true } [] 0 1).1.y = 19 ∧
    (move { struct := [[true]], x := 3, y := 19, current := true } [] 0 1).1.struct = [[true]] ∧
    (move { struct := [[true]], x := 3, y := 19, current := true } [] 0 1).2 =
      (if (0 : Int) < 1 then MoveResult.bottomReached else MoveResult.blocked) :=
  (c6_move_atomic { struct := [[true]], x := 3, y := 19, current := true } [] 0 1).1
    (by decide)

/-! ## Claim C7: spawn collision means game over, no piece added -/

/-- C7: when the piece instantiated at the fixed spawn anchor immediately
collides with an existing piece, `_create_new_block` raises `TopReached`
(game over) before any mutation: the returned state is exactly the input
state, with the piece collection unchanged. -/
theorem c7_spawn_collision (fuel : Nat) (s : GameState) (shape : Mat)
    (rotBit flipBit : Bool)
    (h : collide (mkBlock shape rotBit flipBit) s.blocks = true) :
    create_new_block fuel s (mkBlock shape rotBit flipBit) =
      (s, SpawnStatus.topReached) := by
  simp [create_new_block, h]

/-- C7 witness: spawning a T piece onto a board whose top row is a full
wall yields `TopReached` with the state untouched. -/
theorem c7_spawn_collision_witness :
    create_new_block 25
      { blocks := [{ struct := [List.replicate 10 true], x := 0, y := 0, current := false }],
        score := 0, lines_completed := 0, level := 1, speed := 800 }
      (mkBlock tStruct false false) =
      ({ blocks := [{ struct := [List.replicate 10 true], x := 0, y := 0, current := false }],
         score := 0, lines_completed := 0, level := 1, speed := 800 },
        SpawnStatus.topReached) :=
  c7_spawn_collision 25 _ tStruct false false (by decide)

/-! ## Claim C4: the level-speed table is indexed past its end -/

/-- C4: the claim says exhaustion of `LEVEL_SPEEDS` is an explicitly
handled condition; in the source it is the unguarded
`LEVEL_SPEEDS[self.level - 1]`.  At the failing input — level 5 with 9
lines completed and a full bottom row — clearing the row advances the
level to 6 and the lookup indexes past the 5-entry table: the engine
escapes with the index error instead of returning a state. -/
theorem c4_speed_lookup_crash :
    checkLineCompletion 3
      { blocks := [{ struct := [List.replicate 10 true], x := 0, y := 19, current := false }],
        score := 0, lines_completed := 9, level := 5, speed := 200 } =
      Except.error EngineError.indexError ∧
    LEVEL_SPEEDS.get? (6 - 1) = none := by
  exact ⟨by rfl, by rfl⟩

/-! ## Claim C1: the rotation placement loop need not terminate -/

/-- If the loop body of `Block.rotate` makes no progress while its
condition holds, the loop never exits, whatever the fuel. -/
theorem rotGo_none_of_stuck {b : Block} {others : List Block}
    (hc : rotCond b others = true) (hn : rotNudge b = b) :
    ∀ fuel, rotGo fuel b others = none := by
  intro fuel
  induction fuel with
  | zero => rfl
  | succ n ih => simp only [rotGo, hc, if_true, hn, ih]

/-- C1: the placement-resolution loop of `rotate` does not always
terminate.  A vertical domino at `(5,10)` rotates into a horizontal
domino overlapping a settled cell at `(6,10)`: the rotated piece is in
bounds but colliding, so none of the three nudge branches fires, the body
returns the block unchanged, and the `while` loop spins forever — for
every fuel the loop has not exited. -/
theorem c1_rotate_nonterminating :
    rotCond { struct := rot90 [[true], [true]], x := 5, y := 10, current := true }
      [{ struct := [[true]], x := 6, y := 10, current := false }] = true ∧
    rotNudge { struct := rot90 [[true], [true]], x := 5, y := 10, current := true } =
      { struct := rot90 [[true], [true]], x := 5, y := 10, current := true } ∧
    ∀ fuel, rotate fuel { struct := [[true], [true]], x := 5, y := 10, current := true }
      [{ struct := [[true]], x := 6, y := 10, current := false }] = none := by
  refine ⟨by decide, by decide, fun fuel => ?_⟩
  exact rotGo_none_of_stuck (by decide) (by decide) fuel

/-! ## Claim C2: column compaction after a row deletion

Structural lemmas about columns, column deletion and the scan of
`del_empty_columns`. -/

theorem colEmpty_eq_true_iff {m : Mat} {c : Nat} :
    colEmpty m c = true ↔ ∀ i, cellAt m i c = false := by
  rcases h : colEmpty m c with _ | _
  · simp only [Bool.false_eq_true, false_iff, not_forall]
    rcases colEmpty_eq_false_iff.1 h with ⟨i, hi⟩
    exact ⟨i, by simp [hi]⟩
  · simp only [true_iff]
    intro i
    by_contra hi
    rw [Bool.not_eq_false] at hi
    rw [colEmpty_eq_false_iff.2 ⟨i, hi⟩] at h
    cases h

theorem colEmpty_of_ncols_le {m : Mat} {c : Nat} (hrect : IsRect m)
    (hc : ncols m ≤ c) : colEmpty m c = true := by
  rw [colEmpty_eq_true_iff]
  intro i
  by_contra hi
  rw [Bool.not_eq_false] at hi
  have := cellAt_col_lt hrect hi
  omega

theorem colEmpty_false_lt_ncols {m : Mat} {c : Nat} (hrect : IsRect m)
    (h : colEmpty m c = false) : c < ncols m := by
  by_contra hc
  rw [colEmpty_of_ncols_le hrect (by omega)] at h
  cases h

theorem ncols_deleteCol {m : Mat} {c : Nat} (hc : c < ncols m) :
    ncols (deleteCol c m) = ncols m - 1 := by
  rcases m with _ | ⟨row, rest⟩
  · simp [ncols] at hc
  · have hc' : c < row.length := by simpa [ncols] using hc
    have h1 : ncols (deleteCol c (row :: rest)) = (row.eraseIdx c).length := rfl
    have h2 : ncols (row :: rest) = row.length := rfl
    rw [h1, h2, List.length_eraseIdx, if_pos hc']

theorem isRect_deleteCol {m : Mat} {c : Nat} (hrect : IsRect m) (hc : c < ncols m) :
    IsRect (deleteCol c m) := by
  intro row hrow
  rcases List.mem_map.1 hrow with ⟨row0, hrow0, rfl⟩
  have hl : row0.length = ncols m := hrect row0 hrow0
  rw [ncols_deleteCol hc, List.length_eraseIdx, hl, if_pos hc]

theorem nrows_deleteCol {m : Mat} {c : Nat} : nrows (deleteCol c m) = nrows m := by
  simp [nrows, deleteCol]

theorem cellAt_deleteCol {m : Mat} {c i j : Nat} :
    cellAt (deleteCol c m) i j = if j < c then cellAt m i j else cellAt m i (j + 1) := by
  simp only [cellAt, deleteCol, List.get?_eq_getElem?, List.getElem?_map]
  rcases ho : m[i]? with _ | row
  · split <;> rfl
  · have h1 : (Option.map (fun l : List Bool => l.eraseIdx c) (some row)).bind
        (fun a => a[j]?) = (row.eraseIdx c)[j]? := rfl
    rw [h1, List.getElem?_eraseIdx]
    split <;> rfl

theorem colEmpty_deleteCol {m : Mat} {c cp : Nat} :
    colEmpty (deleteCol c m) cp = if cp < c then colEmpty m cp else colEmpty m (cp + 1) := by
  by_cases hcp : cp < c
  · rw [if_pos hcp]
    simp only [colEmpty, deleteCol, List.all_map]
    congr 1
    funext row
    simp only [Function.comp_apply, List.get?_eq_getElem?, List.getElem?_eraseIdx, if_pos hcp]
  · rw [if_neg hcp]
    simp only [colEmpty, deleteCol, List.all_map]
    congr 1
    funext row
    simp only [Function.comp_apply, List.get?_eq_getElem?, List.getElem?_eraseIdx, if_neg hcp]

theorem range_find?_eq_some {p : Nat → Bool} {n c : Nat} :
    (List.range n).find? p = some c ↔ c < n ∧ p c = true ∧ ∀ i < c, p i = false := by
  induction n generalizing c with
  | zero => simp
  | succ k ih =>
    rw [List.range_succ, List.find?_append]
    rcases h : (List.range k).find? p with _ | c0
    · rw [List.find?_eq_none] at h
      simp only [Option.none_or]
      constructor
      · intro hf
        have hp : p k = true := by
          rcases hfk : p k with _ | _
          · simp [List.find?, hfk] at hf
          · rfl
        have : c = k := by
          simp [List.find?, hp] at hf
          omega
        subst this
        exact ⟨by omega, hp, fun i hi => by
          have := h i (List.mem_range.2 hi)
          simpa using this⟩
      · rintro ⟨hlt, hp, hmin⟩
        have hck : c = k := by
          by_contra hne
          have := h c (List.mem_range.2 (by omega))
          simp [hp] at this
        subst hck
        simp [List.find?, hp]
    · have hsome : (some c0).or ((List.find? p [k])) = some c0 := rfl
      rw [hsome]
      rw [ih] at h
      constructor
      · intro hs
        injection hs with hs
        subst hs
        exact ⟨by omega, h.2.1, h.2.2⟩
      · rintro ⟨hlt, hp, hmin⟩
        rcases Nat.lt_trichotomy c c0 with hc | hc | hc
        · rw [h.2.2 c hc] at hp
          cases hp
        · simp [hc]
        · rw [hmin c0 hc] at h
          rcases h with ⟨-, h, -⟩
          cases h

theorem firstEmptyCol_eq_some {m : Mat} {c : Nat} :
    firstEmptyCol m = some c ↔
      c < ncols m ∧ colEmpty m c = true ∧ ∀ i < c, colEmpty m i = false :=
  range_find?_eq_some

theorem firstEmptyCol_eq_none {m : Mat} :
    firstEmptyCol m = none ↔ ∀ c < ncols m, colEmpty m c = false := by
  rw [firstEmptyCol, List.find?_eq_none]
  constructor
  · intro h c hc
    have := h c (List.mem_range.2 hc)
    simpa using this
  · intro h c hc
    rw [List.mem_range] at hc
    simp [h c hc]

/-- Board-space positions of the cells of a matrix anchored at column `x`:
`(board column, local row)`.  Column compaction never touches rows, so the
local row index doubles as the board-row offset. -/
def colPoints (x : Int) (m : Mat) : List (Int × Nat) :=
  (truePoints m).map (fun p => (x + p.2, p.1))

theorem mem_colPoints {x : Int} {m : Mat} {q : Int × Nat} :
    q ∈ colPoints x m ↔ ∃ i j, cellAt m i j = true ∧ q = (x + j, i) := by
  simp only [colPoints, List.mem_map, Prod.exists]
  constructor
  · rintro ⟨i, j, hm, rfl⟩
    exact ⟨i, j, mem_truePoints.1 hm, rfl⟩
  · rintro ⟨i, j, hc, rfl⟩
    exact ⟨i, j, mem_truePoints.2 hc, rfl⟩

/-- The number of leading empty columns: the index of the first nonempty
column (or `ncols` when every column is empty). -/
def leadingEmpty (m : Mat) : Nat :=
  ((List.range (ncols m)).find? (fun c => !colEmpty m c)).getD (ncols m)

/-- Empty columns form a suffix: once a column is empty, all later ones are. -/
def EmptySuffix (m : Mat) : Prop :=
  ∀ c cp, c ≤ cp → colEmpty m c = true → colEmpty m cp = true

/-- The nonempty columns are contiguous: no empty column lies strictly
between two nonempty ones.  (Stated with bounded quantifiers so that it is
decidable on concrete matrices.) -/
def ColConvex (m : Mat) : Prop :=
  ∀ c3 < ncols m, ∀ c2 ≤ c3, ∀ c1 ≤ c2,
    colEmpty m c1 = false → colEmpty m c3 = false → colEmpty m c2 = false

instance (m : Mat) : Decidable (ColConvex m) := by
  unfold ColConvex; infer_instance

theorem colConvex_spread {m : Mat} (hrect : IsRect m) (hconv : ColConvex m) :
    ∀ c1 c2 c3, c1 ≤ c2 → c2 ≤ c3 →
      colEmpty m c1 = false → colEmpty m c3 = false → colEmpty m c2 = false :=
  fun c1 c2 c3 h12 h23 h1 h3 =>
    hconv c3 (colEmpty_false_lt_ncols hrect h3) c2 h23 c1 h12 h1 h3

theorem leadingEmpty_eq_zero {m : Mat} (h0 : colEmpty m 0 = false)
    (hn : 0 < ncols m) : leadingEmpty m = 0 := by
  have : (List.range (ncols m)).find? (fun c => !colEmpty m c) = some 0 :=
    range_find?_eq_some.2 ⟨hn, by simp [h0], fun i hi => absurd hi (by omega)⟩
  simp [leadingEmpty, this]

theorem leadingEmpty_zero_of_ncols_zero {m : Mat} (h : ncols m = 0) :
    leadingEmpty m = 0 := by
  simp [leadingEmpty, h]

theorem colEmpty_deleteCol_zero {m : Mat} {c : Nat} :
    colEmpty (deleteCol 0 m) c = colEmpty m (c + 1) := by
  rw [colEmpty_deleteCol, if_neg (by omega)]

theorem leadingEmpty_succ {m : Mat} (h0 : colEmpty m 0 = true)
    (hn : 0 < ncols m) : leadingEmpty m = leadingEmpty (deleteCol 0 m) + 1 := by
  rcases hk : ncols m with _ | k
  · omega
  have hdel : ncols (deleteCol 0 m) = k := by rw [ncols_deleteCol (by omega)]; omega
  have hmap : (fun c => !colEmpty m c) ∘ Nat.succ =
      fun c => !colEmpty (deleteCol 0 m) c := by
    funext c
    simp [Function.comp, colEmpty_deleteCol_zero]
  unfold leadingEmpty
  rw [hk, hdel, List.range_succ_eq_map,
    List.find?_cons_of_neg _ (by simp [h0]), List.find?_map, hmap]
  rcases hf : (List.range k).find? (fun c => !colEmpty (deleteCol 0 m) c) with _ | c
  · simp [hf]
  · simp [hf]

theorem delECAux_succ_none {fuel : Nat} {m : Mat} {off : Nat} {kc : Bool}
    (h : firstEmptyCol m = none) :
    delECAux (fuel + 1) m off kc = (m, off) := by
  simp [delECAux, h]

theorem delECAux_succ_some {fuel : Nat} {m : Mat} {off : Nat} {kc : Bool} {c : Nat}
    (h : firstEmptyCol m = some c) :
    delECAux (fuel + 1) m off kc =
      delECAux fuel (deleteCol c m) (if kc && c == 0 then off + 1 else off)
        (kc && c == 0) := by
  simp [delECAux, h]

theorem anyCell_deleteCol {m : Mat} {c : Nat} (h : colEmpty m c = true) :
    anyCell (deleteCol c m) = anyCell m := by
  rcases ha : anyCell m with _ | _
  · rw [Bool.eq_false_iff]
    intro hd
    rcases anyCell_iff.1 hd with ⟨i, j, hc⟩
    rw [cellAt_deleteCol] at hc
    rw [Bool.eq_false_iff] at ha
    apply ha
    split at hc
    · exact anyCell_iff.2 ⟨i, j, hc⟩
    · exact anyCell_iff.2 ⟨i, j + 1, hc⟩
  · rcases anyCell_iff.1 ha with ⟨i, j, hc⟩
    have hjc : j ≠ c := by
      intro hjc
      rw [hjc, colEmpty_eq_true_iff.1 h i] at hc
      cases hc
    apply anyCell_iff.2
    rcases Nat.lt_or_ge j c with hj | hj
    · exact ⟨i, j, by rw [cellAt_deleteCol, if_pos hj]; exact hc⟩
    · have hj' : c < j := by omega
      refine ⟨i, j - 1, ?_⟩
      rw [cellAt_deleteCol, if_neg (by omega)]
      have : j - 1 + 1 = j := by omega
      rw [this]
      exact hc

theorem colPoints_deleteCol_of_tail_empty {m : Mat} {c : Nat} {x : Int}
    (hall : ∀ j, c ≤ j → colEmpty m j = true) {q : Int × Nat} :
    q ∈ colPoints x (deleteCol c m) ↔ q ∈ colPoints x m := by
  rw [mem_colPoints, mem_colPoints]
  constructor
  · rintro ⟨i, j, hc, rfl⟩
    rw [cellAt_deleteCol] at hc
    split at hc
    · exact ⟨i, j, hc, rfl⟩
    · rw [colEmpty_eq_true_iff.1 (hall (j + 1) (by omega)) i] at hc
      cases hc
  · rintro ⟨i, j, hc, rfl⟩
    have hj : j < c := by
      by_contra hj
      rw [colEmpty_eq_true_iff.1 (hall j (by omega)) i] at hc
      cases hc
    exact ⟨i, j, by rw [cellAt_deleteCol, if_pos hj]; exact hc, rfl⟩

theorem colPoints_deleteCol_zero {m : Mat} {x : Int}
    (h0 : colEmpty m 0 = true) {q : Int × Nat} :
    q ∈ colPoints (x + 1) (deleteCol 0 m) ↔ q ∈ colPoints x m := by
  rw [mem_colPoints, mem_colPoints]
  constructor
  · rintro ⟨i, j, hc, rfl⟩
    rw [cellAt_deleteCol, if_neg (by omega)] at hc
    exact ⟨i, j + 1, hc, by simp; omega⟩
  · rintro ⟨i, j, hc, rfl⟩
    rcases j with _ | j
    · rw [colEmpty_eq_true_iff.1 h0 i] at hc
      cases hc
    · refine ⟨i, j, by rw [cellAt_deleteCol, if_neg (by omega)]; exact hc, by simp; omega⟩

theorem delECAux_off_false {fuel : Nat} : ∀ {m : Mat} {off : Nat},
    (delECAux fuel m off false).2 = off := by
  induction fuel with
  | zero => intro m off; rfl
  | succ n ih =>
    intro m off
    rcases hf : firstEmptyCol m with _ | c
    · rw [delECAux_succ_none hf]
    · rw [delECAux_succ_some hf]
      simpa using ih

theorem delECAux_basic {fuel : Nat} : ∀ {m : Mat} {off : Nat} {kc : Bool},
    ncols m ≤ fuel → IsRect m →
    IsRect (delECAux fuel m off kc).1 ∧
    nrows (delECAux fuel m off kc).1 = nrows m ∧
    anyCell (delECAux fuel m off kc).1 = anyCell m ∧
    ∀ c < ncols (delECAux fuel m off kc).1, colEmpty (delECAux fuel m off kc).1 c = false := by
  induction fuel with
  | zero =>
    intro m off kc hfuel hrect
    have h0 : ncols m = 0 := by omega
    refine ⟨hrect, rfl, rfl, fun c hc => ?_⟩
    have hm : (delECAux 0 m off kc).1 = m := rfl
    rw [hm, h0] at hc
    exact absurd hc (by omega)
  | succ n ih =>
    intro m off kc hfuel hrect
    rcases hf : firstEmptyCol m with _ | c
    · rw [delECAux_succ_none hf]
      exact ⟨hrect, rfl, rfl, firstEmptyCol_eq_none.1 hf⟩
    · rw [delECAux_succ_some hf]
      rcases firstEmptyCol_eq_some.1 hf with ⟨hlt, hemp, -⟩
      have hrect' := isRect_deleteCol hrect hlt
      have hnc : ncols (deleteCol c m) = ncols m - 1 := ncols_deleteCol hlt
      have hrec := @ih (deleteCol c m)
        (if kc && c == 0 then off + 1 else off) (kc && c == 0)
        (by omega) hrect'
      refine ⟨hrec.1, ?_, ?_, hrec.2.2.2⟩
      · rw [hrec.2.1, nrows_deleteCol]
      · rw [hrec.2.2.1, anyCell_deleteCol hemp]

theorem delECAux_off_true {fuel : Nat} : ∀ {m : Mat} {off : Nat},
    ncols m ≤ fuel → IsRect m →
    (delECAux fuel m off true).2 = off + leadingEmpty m := by
  induction fuel with
  | zero =>
    intro m off hfuel hrect
    rw [leadingEmpty_zero_of_ncols_zero (by omega)]
    rfl
  | succ n ih =>
    intro m off hfuel hrect
    rcases hf : firstEmptyCol m with _ | c
    · rw [delECAux_succ_none hf]
      rcases Nat.eq_zero_or_pos (ncols m) with h0 | h0
      · rw [leadingEmpty_zero_of_ncols_zero h0]
        rfl
      · rw [leadingEmpty_eq_zero (firstEmptyCol_eq_none.1 hf 0 h0) h0]
        rfl
    · rw [delECAux_succ_some hf]
      rcases firstEmptyCol_eq_some.1 hf with ⟨hlt, hemp, hmin⟩
      rcases c with _ | c
      · have hkc : (true && ((0 : Nat) == 0)) = true := by simp
        rw [hkc, if_pos rfl]
        rw [ih (by rw [ncols_deleteCol hlt]; omega) (isRect_deleteCol hrect hlt),
          leadingEmpty_succ hemp hlt]
        omega
      · have hkc : (true && ((c + 1 : Nat) == 0)) = false := by simp
        rw [hkc]
        have hle : leadingEmpty m = 0 :=
          leadingEmpty_eq_zero (hmin 0 (by omega)) (by omega)
        rw [delECAux_off_false, hle]
        simp

theorem delECAux_points_false {fuel : Nat} : ∀ {m : Mat} {off : Nat} {x : Int},
    ncols m ≤ fuel → IsRect m → EmptySuffix m →
    ∀ q, q ∈ colPoints x (delECAux fuel m off false).1 ↔ q ∈ colPoints x m := by
  induction fuel with
  | zero => intro m off x hfuel hrect hsuf q; exact Iff.rfl
  | succ n ih =>
    intro m off x hfuel hrect hsuf q
    rcases hf : firstEmptyCol m with _ | c
    · rw [delECAux_succ_none hf]
    · rw [delECAux_succ_some hf]
      rcases firstEmptyCol_eq_some.1 hf with ⟨hlt, hemp, hmin⟩
      have hall : ∀ j, c ≤ j → colEmpty m j = true := fun j hj => hsuf c j hj hemp
      have hsuf' : EmptySuffix (deleteCol c m) := by
        intro a b hab ha
        rw [colEmpty_deleteCol] at ha
        have hac : ¬ a < c := by
          intro hac
          rw [if_pos hac, hmin a hac] at ha
          cases ha
        rw [if_neg hac] at ha
        rw [colEmpty_deleteCol, if_neg (by omega)]
        exact hsuf (a + 1) (b + 1) (by omega) ha
      have hkc : (false && (c == 0)) = false := by simp
      rw [hkc]
      rw [ih (by rw [ncols_deleteCol hlt]; omega) (isRect_deleteCol hrect hlt) hsuf' q]
      exact colPoints_deleteCol_of_tail_empty hall

theorem delECAux_points_true {fuel : Nat} : ∀ {m : Mat} {off : Nat} {x : Int},
    ncols m ≤ fuel → IsRect m →
    (∀ c1 c2 c3, c1 ≤ c2 → c2 ≤ c3 →
      colEmpty m c1 = false → colEmpty m c3 = false → colEmpty m c2 = false) →
    ∀ q, q ∈ colPoints (x + (leadingEmpty m : Int)) (delECAux fuel m off true).1 ↔
      q ∈ colPoints x m := by
  induction fuel with
  | zero =>
    intro m off x hfuel hrect hconv q
    rw [leadingEmpty_zero_of_ncols_zero (by omega)]
    simp only [Nat.cast_zero, add_zero]
    exact Iff.rfl
  | succ n ih =>
    intro m off x hfuel hrect hconv q
    rcases hf : firstEmptyCol m with _ | c
    · rw [delECAux_succ_none hf]
      have hle : leadingEmpty m = 0 := by
        rcases Nat.eq_zero_or_pos (ncols m) with h0 | h0
        · exact leadingEmpty_zero_of_ncols_zero h0
        · exact leadingEmpty_eq_zero (firstEmptyCol_eq_none.1 hf 0 h0) h0
      rw [hle]
      simp only [Nat.cast_zero, add_zero]
    · rw [delECAux_succ_some hf]
      rcases firstEmptyCol_eq_some.1 hf with ⟨hlt, hemp, hmin⟩
      rcases c with _ | c
      · have hkc : (true && ((0 : Nat) == 0)) = true := by simp
        rw [hkc, if_pos rfl]
        have hrect' := isRect_deleteCol hrect hlt
        have hconv' : ∀ c1 c2 c3, c1 ≤ c2 → c2 ≤ c3 →
            colEmpty (deleteCol 0 m) c1 = false → colEmpty (deleteCol 0 m) c3 = false →
            colEmpty (deleteCol 0 m) c2 = false := by
          intro c1 c2 c3 h12 h23 h1 h3
          rw [colEmpty_deleteCol_zero] at h1 h3 ⊢
          exact hconv _ _ _ (by omega) (by omega) h1 h3
        have hrec := @ih (deleteCol 0 m) (off + 1) (x + 1)
          (by rw [ncols_deleteCol hlt]; omega) hrect' hconv' q
        rw [leadingEmpty_succ hemp hlt]
        have harith : x + ((leadingEmpty (deleteCol 0 m) + 1 : Nat) : Int) =
            (x + 1) + (leadingEmpty (deleteCol 0 m) : Int) := by push_cast; ring
        rw [harith, hrec]
        exact colPoints_deleteCol_zero hemp
      · have h0 : colEmpty m 0 = false := hmin 0 (by omega)
        have hall : ∀ j, c + 1 ≤ j → colEmpty m j = true := by
          intro j hj
          by_contra hje
          rw [Bool.not_eq_true] at hje
          have hcon := hconv c (c + 1) j (by omega) hj (hmin c (by omega)) hje
          rw [hemp] at hcon
          cases hcon
        have hle : leadingEmpty m = 0 := leadingEmpty_eq_zero h0 (by omega)
        have hkc : (true && ((c + 1 : Nat) == 0)) = false := by simp
        rw [hkc]
        have hsuf' : EmptySuffix (deleteCol (c + 1) m) := by
          intro a b hab ha
          rw [colEmpty_deleteCol] at ha
          have hac : ¬ a < c + 1 := by
            intro hac
            rw [if_pos hac, hmin a hac] at ha
            cases ha
          rw [colEmpty_deleteCol, if_neg (by omega)]
          exact hall (b + 1) (by omega)
        rw [hle]
        simp only [Nat.cast_zero, add_zero]
        rw [delECAux_points_false (by rw [ncols_deleteCol hlt]; omega)
          (isRect_deleteCol hrect hlt) hsuf' q]
        exact colPoints_deleteCol_of_tail_empty hall

theorem isRect_deleteRow {m : Mat} {r : Nat} (hrect : IsRect m) :
    IsRect (deleteRow r m) := by
  have hsub : ∀ row ∈ deleteRow r m, row ∈ m := fun row h => List.eraseIdx_subset m r h
  rcases hm : deleteRow r m with _ | ⟨row0, rest⟩
  · intro row hrow; cases hrow
  · intro row hrow
    have h0 : row0.length = ncols m :=
      hrect row0 (hsub row0 (by rw [hm]; exact List.mem_cons_self _ _))
    have hn : ncols (row0 :: rest) = row0.length := rfl
    rw [hn, h0]
    exact hrect row (hsub row (by rw [hm]; exact hrow))

/-- C2, counterexample: the piece `[[1,0,1],[0,1,0]]` loses local row 1.
The remaining row `[1,0,1]` still has a true cell, compaction removes the
*interior* empty column and returns offset 0, and the cell that sat at
board column `x+2` now sits at board column `x+1`: the remaining cells do
not keep their original board-space position, contrary to the claim. -/
theorem c2_counterexample :
    anyCell (deleteRow 1 [[true, false, true], [false, true, false]]) = true ∧
    del_empty_columns (deleteRow 1 [[true, false, true], [false, true, false]]) =
      ([[true, true]], 0) ∧
    ((2 : Int), 0) ∈ colPoints 0 (deleteRow 1 [[true, false, true], [false, true, false]]) ∧
    ((2 : Int), 0) ∉
      colPoints ((0 : Int) +
        ((del_empty_columns (deleteRow 1 [[true, false, true], [false, true, false]])).2 : Int))
        (del_empty_columns (deleteRow 1 [[true, false, true], [false, true, false]])).1 := by
  exact ⟨by rfl, by rfl, by decide, by decide⟩

/-- C2 (amended): after a local row is deleted from a rectangular piece
matrix that still has a true cell, `del_empty_columns` leaves no
entirely-empty column, preserves the row count, preserves non-emptiness,
and returns as offset exactly the number of leading empty columns — and
*provided no empty column lies strictly between two nonempty ones* (true
of every matrix the game's shapes can produce), adding the offset to the
anchor keeps every remaining cell at its original board-space position. -/
theorem c2_compaction (m : Mat) (r : Nat) (x : Int) (hrect : IsRect m)
    (hany : anyCell (deleteRow r m) = true)
    (hconv : ColConvex (deleteRow r m)) :
    (∀ c < ncols (del_empty_columns (deleteRow r m)).1,
        colEmpty (del_empty_columns (deleteRow r m)).1 c = false) ∧
    (del_empty_columns (deleteRow r m)).2 = leadingEmpty (deleteRow r m) ∧
    nrows (del_empty_columns (deleteRow r m)).1 = nrows (deleteRow r m) ∧
    anyCell (del_empty_columns (deleteRow r m)).1 = true ∧
    (∀ q, q ∈ colPoints (x + ((del_empty_columns (deleteRow r m)).2 : Int))
        (del_empty_columns (deleteRow r m)).1 ↔ q ∈ colPoints x (deleteRow r m)) := by
  have hrect1 : IsRect (deleteRow r m) := isRect_deleteRow hrect
  have hfuel : ncols (deleteRow r m) ≤ ncols (deleteRow r m) := le_refl _
  have hbasic := @delECAux_basic (ncols (deleteRow r m))
    (deleteRow r m) 0 true hfuel hrect1
  have hoff := @delECAux_off_true (ncols (deleteRow r m))
    (deleteRow r m) 0 hfuel hrect1
  have hpoints := @delECAux_points_true (ncols (deleteRow r m))
    (deleteRow r m) 0 x hfuel hrect1
    (colConvex_spread hrect1 hconv)
  rw [Nat.zero_add] at hoff
  simp only [del_empty_columns]
  refine ⟨hbasic.2.2.2, hoff, hbasic.2.1, ?_, ?_⟩
  · rw [hbasic.2.2.1]
    exact hany
  · intro q
    rw [hoff]
    exact hpoints q

/-- C2 witness: the amended statement applied to the square-ish piece
`[[1,1],[1,0]]` anchored at column 3, losing local row 1. -/
theorem c2_compaction_witness :
    (∀ c < ncols (del_empty_columns (deleteRow 1 [[true, true], [true, false]])).1,
        colEmpty (del_empty_columns (deleteRow 1 [[true, true], [true, false]])).1 c = false) ∧
    (del_empty_columns (deleteRow 1 [[true, true], [true, false]])).2 =
      leadingEmpty (deleteRow 1 [[true, true], [true, false]]) ∧
    nrows (del_empty_columns (deleteRow 1 [[true, true], [true, false]])).1 =
      nrows (deleteRow 1 [[true, true], [true, false]]) ∧
    anyCell (del_empty_columns (deleteRow 1 [[true, true], [true, false]])).1 = true ∧
    (∀ q, q ∈ colPoints ((3 : Int) +
        ((del_empty_columns (deleteRow 1 [[true, true], [true, false]])).2 : Int))
        (del_empty_columns (deleteRow 1 [[true, true], [true, false]])).1 ↔
      q ∈ colPoints 3 (deleteRow 1 [[true, true], [true, false]])) :=
  c2_compaction [[true, true], [true, false]] 1 3 (by decide) (by decide) (by decide)

/-! ## Claim C8: per-clear scoring -/

theorem levelCheck_no_levelup {st : GameState}
    (h : st.lines_completed < LINES_PER_LEVEL) : levelCheck st = .ok st := by
  unfold levelCheck
  rw [if_neg (by omega)]

/-- C8: whenever the clearance engine finds a full row, it processes that
row through `singleClear`, and the single clear adds exactly 5 to the
score and exactly 1 to the level's lines-completed counter (level and
speed untouched, as long as the level-up threshold is not reached by this
clear). -/
theorem c8_single_clear (fuel : Nat) (s : GameState) (r : Nat)
    (h1 : firstFullRowFromBottom (updateGrid s.blocks) = some r)
    (h2 : s.lines_completed + 1 < LINES_PER_LEVEL) :
    checkLineCompletion (fuel + 1) s =
      (match singleClear s r with
        | .error e => .error e
        | .ok s1 => checkLineCompletion fuel s1) ∧
    ∃ s1, singleClear s r = .ok s1 ∧ s1.score = s.score + 5 ∧
      s1.lines_completed = s.lines_completed + 1 ∧
      s1.level = s.level ∧ s1.speed = s.speed := by
  constructor
  · simp only [checkLineCompletion, h1]
  · simp only [singleClear]
    split
    · rename_i e heq
      simp only [levelCheck] at heq
      rw [if_neg (by omega)] at heq
      cases heq
    · rename_i s2 heq
      simp only [levelCheck] at heq
      rw [if_neg (by omega)] at heq
      injection heq with heq
      subst heq
      exact ⟨_, rfl, rfl, rfl, rfl, rfl⟩

/-- C8 witness: one full bottom row made of a single flat piece. -/
theorem c8_single_clear_witness :
    (checkLineCompletion 3
        { blocks := [{ struct := [List.replicate 10 true], x := 0, y := 19, current := false }],
          score := 0, lines_completed := 0, level := 1, speed := 800 } =
      (match singleClear
          { blocks := [{ struct := [List.replicate 10 true], x := 0, y := 19, current := false }],
            score := 0, lines_completed := 0, level := 1, speed := 800 } 19 with
        | .error e => .error e
        | .ok s1 => checkLineCompletion 2 s1)) ∧
    ∃ s1, singleClear
        { blocks := [{ struct := [List.replicate 10 true], x := 0, y := 19, current := false }],
          score := 0, lines_completed := 0, level := 1, speed := 800 } 19 = .ok s1 ∧
      s1.score = 0 + 5 ∧ s1.lines_completed = 0 + 1 ∧ s1.level = 1 ∧ s1.speed = 800 :=
  c8_single_clear 2 _ 19 (by rfl) (by decide)

/-! ## Claim C9: the piece invariant

Pieces never lose their matrix shape through moves and drops; rotation
turns the matrix but keeps its cells; the clearance engine removes a piece
the moment its matrix goes entirely empty. -/

theorem isRect_of_all_length {m : Mat} (k : Nat) (h : ∀ row ∈ m, row.length = k) :
    IsRect m := by
  rcases m with _ | ⟨r0, rest⟩
  · intro row hrow; cases hrow
  · intro row hrow
    have h0 : ncols (r0 :: rest) = r0.length := rfl
    rw [h0, h r0 (List.mem_cons_self _ _)]
    exact h row hrow

theorem length_rot90 (m : Mat) : (rot90 m).length = ncols m := by
  simp [rot90]

theorem isRect_rot90 {m : Mat} : IsRect (rot90 m) := by
  apply isRect_of_all_length (nrows m)
  intro row hrow
  rw [rot90, List.mem_reverse] at hrow
  rcases List.mem_map.1 hrow with ⟨c, -, rfl⟩
  simp [nrows]

theorem cellAt_rot90_lt {m : Mat} {i j : Nat} (hi : i < ncols m) :
    cellAt (rot90 m) i j = cellAt m j (ncols m - 1 - i) := by
  have hlen : ((List.range (ncols m)).map
      (fun c => m.map (fun row => (row.get? c).getD false))).length = ncols m := by simp
  have hrev : (rot90 m)[i]? = ((List.range (ncols m)).map
      (fun c => m.map (fun row => (row.get? c).getD false)))[ncols m - 1 - i]? := by
    rw [rot90, List.getElem?_reverse (by rw [hlen]; exact hi), hlen]
  rw [cellAt, List.get?_eq_getElem?, hrev, List.getElem?_map,
    List.getElem?_range (by omega)]
  have h1 : ((Option.map (fun c => m.map (fun row => (row.get? c).getD false))
      (some (ncols m - 1 - i))).bind (fun x => x.get? j)) =
      (m.map (fun row => (row.get? (ncols m - 1 - i)).getD false)).get? j := rfl
  rw [h1, List.get?_eq_getElem?, List.getElem?_map, cellAt, List.get?_eq_getElem?]
  rcases hmj : m[j]? with _ | row <;> simp [hmj]

theorem anyCell_rot90 {m : Mat} (hrect : IsRect m) :
    anyCell (rot90 m) = anyCell m := by
  rcases ha : anyCell m with _ | _
  · rw [Bool.eq_false_iff]
    intro hr
    rcases anyCell_iff.1 hr with ⟨i, j, hc⟩
    have hi : i < ncols m := by
      have := cellAt_row_lt hc
      rwa [nrows, length_rot90] at this
    rw [cellAt_rot90_lt hi] at hc
    rw [anyCell_iff.2 ⟨j, ncols m - 1 - i, hc⟩] at ha
    cases ha
  · rcases anyCell_iff.1 ha with ⟨i0, j0, hc⟩
    have hj0 : j0 < ncols m := cellAt_col_lt hrect hc
    apply anyCell_iff.2
    refine ⟨ncols m - 1 - j0, i0, ?_⟩
    rw [cellAt_rot90_lt (by omega)]
    have harith : ncols m - 1 - (ncols m - 1 - j0) = j0 := by omega
    rw [harith]
    exact hc

theorem move_fst_struct (b : Block) (others : List Block) (dx dy : Int) :
    (move b others dx dy).1.struct = b.struct := by
  simp only [move]
  split
  · split <;> rfl
  · rfl

theorem rotNudge_struct (b : Block) : (rotNudge b).struct = b.struct := by
  unfold rotNudge
  split
  · rfl
  split
  · rfl
  split <;> rfl

theorem dropLoop_struct {fuel : Nat} : ∀ {b : Block} {others : List Block},
    (dropLoop fuel b others).struct = b.struct := by
  induction fuel with
  | zero => intro b others; rfl
  | succ n ih =>
    intro b others
    rw [dropLoop]
    rcases hmv : move b others 0 1 with ⟨b2, res⟩
    have hb2 : b2.struct = b.struct := by
      rw [← move_fst_struct b others 0 1, hmv]
    rcases res with _ | _ | _
    · rw [show (match (b2, MoveResult.moved) with
        | (b2, MoveResult.moved) => dropLoop n b2 others
        | (b2, _) => b2) = dropLoop n b2 others from rfl]
      rw [ih, hb2]
    · exact hb2
    · exact hb2

theorem rotGo_some_struct {fuel : Nat} : ∀ {b b2 : Block} {others : List Block},
    rotGo fuel b others = some b2 → b2.struct = b.struct := by
  induction fuel with
  | zero => intro b b2 others h; cases h
  | succ n ih =>
    intro b b2 others h
    rw [rotGo] at h
    split at h
    · rw [ih h, rotNudge_struct]
    · injection h with h
      rw [← h]

/-- The piece invariant: a rectangular matrix with at least one true cell
(hence at least one row and one column). -/
def BlockOK (b : Block) : Prop := IsRect b.struct ∧ anyCell b.struct = true

/-- Every block of a session satisfies the piece invariant. -/
def BlocksOK (bs : List Block) : Prop := ∀ b ∈ bs, BlockOK b

theorem blockOK_dims {b : Block} (h : BlockOK b) :
    1 ≤ nrows b.struct ∧ 1 ≤ ncols b.struct ∧ anyCell b.struct = true := by
  rcases anyCell_iff.1 h.2 with ⟨i, j, hc⟩
  exact ⟨by have := cellAt_row_lt hc; omega,
    by have := cellAt_col_lt h.1 hc; omega, h.2⟩

theorem blockOK_of_struct_eq {a b : Block} (h : BlockOK a) (he : b.struct = a.struct) :
    BlockOK b := by
  rcases h with ⟨h1, h2⟩
  exact ⟨by rw [he]; exact h1, by rw [he]; exact h2⟩

theorem blocksOK_of_get? {bs : List Block} (h : BlocksOK bs) {i : Nat} {b : Block}
    (hg : bs.get? i = some b) : BlockOK b := by
  rw [List.get?_eq_getElem?] at hg
  exact h b (List.getElem?_mem hg)

theorem gravityPass_OK {bs : List Block} (h : BlocksOK bs) : BlocksOK (gravityPass bs) := by
  have key : ∀ (idxs : List Nat) (bs : List Block), BlocksOK bs →
      BlocksOK (idxs.foldl (fun bs i =>
        match bs.get? i with
        | none => bs
        | some b => if b.current then bs else bs.set i (dropLoop 21 b (bs.eraseIdx i))) bs) := by
    intro idxs
    induction idxs with
    | nil => intro bs h; exact h
    | cons i rest ih =>
      intro bs h
      rw [List.foldl_cons]
      apply ih
      rcases hg : bs.get? i with _ | b
      · simpa [hg] using h
      · simp only [hg]
        by_cases hc : b.current = true
        · simpa [hc] using h
        · rw [if_neg hc]
          intro b' hb'
          rcases List.mem_or_eq_of_mem_set hb' with hmem | rfl
          · exact h b' hmem
          · exact blockOK_of_struct_eq (blocksOK_of_get? h hg) dropLoop_struct
  exact key _ _ h

/-- The joint invariant of the `affected_blocks` fold: every block stays
rectangular, and every block at an index not marked for removal still has
a true cell. -/
def ProcOK (bs : List Block) (rem : List Nat) : Prop :=
  (∀ b ∈ bs, IsRect b.struct) ∧
  (∀ i b, ¬ i ∈ rem → bs.get? i = some b → anyCell b.struct = true)

theorem processAffected_OK {bs : List Block} {aff : List (Nat × Nat)}
    (h : BlocksOK bs) : ProcOK (processAffected bs aff).1 (processAffected bs aff).2 := by
  have key : ∀ (aff : List (Nat × Nat)) (acc : List Block × List Nat), ProcOK acc.1 acc.2 →
      ProcOK (aff.foldl (fun acc p =>
        match acc.1.get? p.1 with
        | none => acc
        | some b =>
          let s := deleteRow p.2 b.struct
          if anyCell s then
            let r := del_empty_columns s
            (acc.1.set p.1 { b with struct := r.1, x := b.x + (r.2 : Int) }, acc.2)
          else (acc.1, p.1 :: acc.2)) acc).1
        (aff.foldl (fun acc p =>
        match acc.1.get? p.1 with
        | none => acc
        | some b =>
          let s := deleteRow p.2 b.struct
          if anyCell s then
            let r := del_empty_columns s
            (acc.1.set p.1 { b with struct := r.1, x := b.x + (r.2 : Int) }, acc.2)
          else (acc.1, p.1 :: acc.2)) acc).2 := by
    intro aff
    induction aff with
    | nil => intro acc hacc; exact hacc
    | cons p rest ih =>
      intro acc hacc
      rw [List.foldl_cons]
      apply ih
      rcases hg : acc.1.get? p.1 with _ | b
      · simpa [hg] using hacc
      · simp only [hg]
        have hbrect : IsRect b.struct := by
          rw [List.get?_eq_getElem?] at hg
          exact hacc.1 b (List.getElem?_mem hg)
        have hrect1 : IsRect (deleteRow p.2 b.struct) := isRect_deleteRow hbrect
        have hbasic := @delECAux_basic (ncols (deleteRow p.2 b.struct))
          (deleteRow p.2 b.struct) 0 true (le_refl _) hrect1
        rcases hs : anyCell (deleteRow p.2 b.struct) with _ | _
        · rw [if_neg (by simp)]
          refine ⟨hacc.1, ?_⟩
          intro i b' hi hg'
          exact hacc.2 i b' (by intro hmem; exact hi (List.mem_cons_of_mem _ hmem)) hg'
        · rw [if_pos rfl]
          constructor
          · intro b' hb'
            rcases List.mem_or_eq_of_mem_set hb' with hmem | rfl
            · exact hacc.1 b' hmem
            · exact hbasic.1
          · intro i b' hi hg'
            rw [List.get?_eq_getElem?, List.getElem?_set] at hg'
            split at hg'
            · split at hg'
              · injection hg' with hg'
                rw [← hg']
                show anyCell (del_empty_columns (deleteRow p.2 b.struct)).1 = true
                have hdef : (del_empty_columns (deleteRow p.2 b.struct)).1 =
                    (delECAux (ncols (deleteRow p.2 b.struct))
                      (deleteRow p.2 b.struct) 0 true).1 := rfl
                rw [hdef, hbasic.2.2.1]
                exact hs
              · cases hg'
            · exact hacc.2 i b' hi (by rw [List.get?_eq_getElem?]; exact hg')
  have h0 : ProcOK bs [] := ⟨fun b hb => (h b hb).1, fun i b hi hg => (blocksOK_of_get? h hg).2⟩
  exact key aff (bs, []) h0

theorem removeIdxs_mem {bs : List Block} {rem : List Nat} {b : Block}
    (h : b ∈ removeIdxs bs rem) : ∃ i, ¬ i ∈ rem ∧ bs.get? i = some b := by
  unfold removeIdxs at h
  rcases List.mem_map.1 h with ⟨p, hp, hb⟩
  rcases p with ⟨i, b0⟩
  rcases List.mem_filter.1 hp with ⟨hpe, hpc⟩
  refine ⟨i, ?_, ?_⟩
  · intro hmem
    rw [Bool.not_eq_eq_eq_not, Bool.not_true] at hpc
    have hmem2 : List.elem i rem = true := List.elem_iff.2 hmem
    rw [List.contains, hmem2] at hpc
    cases hpc
  · rw [List.get?_eq_getElem?]
    have := List.mk_mem_enum_iff_getElem?.1 hpe
    rw [this]
    simp only at hb
    rw [hb]

theorem removeIdxs_OK {bs : List Block} {rem : List Nat}
    (h : ProcOK bs rem) : BlocksOK (removeIdxs bs rem) := by
  intro b hb
  rcases removeIdxs_mem hb with ⟨i, hi, hg⟩
  refine ⟨?_, h.2 i b hi hg⟩
  rw [List.get?_eq_getElem?] at hg
  exact h.1 b (List.getElem?_mem hg)

theorem levelCheck_blocks {st s2 : GameState} (h : levelCheck st = .ok s2) :
    s2.blocks = st.blocks := by
  unfold levelCheck at h
  split at h
  · dsimp only at h
    rcases hl : LEVEL_SPEEDS.get? (st.level + 1 - 1) with _ | sp
    · rw [hl] at h; cases h
    · rw [hl] at h
      injection h with h
      rw [← h]
  · injection h with h
    rw [← h]

theorem singleClear_OK {s : GameState} {r : Nat} {s1 : GameState}
    (h : BlocksOK s.blocks) (he : singleClear s r = .ok s1) : BlocksOK s1.blocks := by
  simp only [singleClear] at he
  split at he
  · cases he
  · rename_i s2 heq
    injection he with he
    rw [← he]
    have hb2 : s2.blocks = removeIdxs
        (processAffected s.blocks (affectedOf (updateGrid s.blocks) r)).1
        (processAffected s.blocks (affectedOf (updateGrid s.blocks) r)).2 :=
      levelCheck_blocks heq
    show BlocksOK (gravityPass s2.blocks)
    apply gravityPass_OK
    rw [hb2]
    exact removeIdxs_OK (processAffected_OK h)

theorem checkLineCompletion_OK {fuel : Nat} : ∀ {s s2 : GameState},
    BlocksOK s.blocks → checkLineCompletion fuel s = .ok s2 → BlocksOK s2.blocks := by
  induction fuel with
  | zero => intro s s2 h he; cases he
  | succ n ih =>
    intro s s2 h he
    rw [checkLineCompletion] at he
    split at he
    · injection he with he
      rw [← he]
      exact h
    · split at he
      · cases he
      · rename_i r hr s1 heq
        exact ih (singleClear_OK h heq) he

theorem create_new_block_OK {fuel : Nat} {s : GameState} {nb : Block}
    (h : BlocksOK s.blocks) (hnb : BlockOK nb) :
    BlocksOK (create_new_block fuel s nb).1.blocks := by
  simp only [create_new_block]
  split
  · exact h
  · have happ : BlocksOK (s.blocks ++ [nb]) := by
      intro b hb
      rcases List.mem_append.1 hb with hmem | hmem
      · exact h b hmem
      · rw [List.mem_singleton.1 hmem]
        exact hnb
    split
    · exact happ
    · rename_i s2 heq
      have h2 : BlocksOK s2.blocks :=
        checkLineCompletion_OK (s := { s with blocks := s.blocks ++ [nb] }) happ heq
      split
      · exact h2
      · exact h2

/-- C9: every operation preserves the piece invariant.  Movement and the
settling pass never change a matrix; rotation replaces it by its quarter
turn, which keeps the cells; spawning adds a piece that itself satisfies
the invariant; and the clearance engine removes a piece in the same step
in which its matrix goes empty, so every piece surviving any operation has
a matrix with at least one row, at least one column and a true cell. -/
theorem c9_invariant :
    (∀ (b : Block) (others : List Block) (dx dy : Int), BlockOK b →
      BlockOK (move b others dx dy).1) ∧
    (∀ (fuel : Nat) (b b2 : Block) (others : List Block), BlockOK b →
      rotate fuel b others = some b2 → BlockOK b2) ∧
    (∀ (fuel : Nat) (s : GameState) (nb : Block), BlocksOK s.blocks → BlockOK nb →
      BlocksOK (create_new_block fuel s nb).1.blocks) ∧
    (∀ (fuel : Nat) (s s2 : GameState), BlocksOK s.blocks →
      checkLineCompletion fuel s = .ok s2 → BlocksOK s2.blocks) ∧
    (∀ b : Block, BlockOK b →
      1 ≤ nrows b.struct ∧ 1 ≤ ncols b.struct ∧ anyCell b.struct = true) := by
  refine ⟨?_, ?_, ?_, ?_, ?_⟩
  · intro b others dx dy hb
    exact blockOK_of_struct_eq hb (move_fst_struct b others dx dy)
  · intro fuel b b2 others hb hrot
    have hstruct : b2.struct = rot90 b.struct := rotGo_some_struct hrot
    refine ⟨?_, ?_⟩
    · rw [hstruct]; exact isRect_rot90
    · rw [hstruct, anyCell_rot90 hb.1]; exact hb.2
  · intro fuel s nb h hnb
    exact create_new_block_OK h hnb
  · intro fuel s s2 h he
    exact checkLineCompletion_OK h he
  · intro b hb
    exact blockOK_dims hb

/-- C9 witness: the clearance part of the invariant on a concrete state:
a full bottom row plus a two-row piece that survives as a one-row piece. -/
theorem c9_invariant_witness :
    BlocksOK
      (create_new_block 23
        { blocks := [{ struct := [[true, true]], x := 0, y := 18, current := false }],
          score := 0, lines_completed := 0, level := 1, speed := 800 }
        (mkBlock squareStruct false false)).1.blocks :=
  (c9_invariant.2.2.1) 23 _ (mkBlock squareStruct false false)
    (by intro b hb; rw [List.mem_singleton.1 hb]; exact ⟨by decide, by decide⟩)
    ⟨by decide, by decide⟩

/-! ## Claim C3: two stacked full rows

The counterexample: rows 18 and 19 are both full, but one of the pieces
filling row 18 hangs from row 17 over a neighbour that is settled later in
group order.  The settling pass pulls pieces down in group order, so the
overhanging piece is blocked by its (not yet moved) neighbour and stays
put; row 19 never refills and the engine awards 5 points, not 10. -/

/-- C3, counterexample: a board with rows 18 and 19 both full on which the
engine performs exactly one clear (score 5, one piece left hanging at row
17/18), not the two sequential clears totalling 10 that the claim
promises for every such board. -/
theorem c3_counterexample :
    fullRow (updateGrid
      [{ struct := [[false, true], [true, false]], x := 0, y := 17, current := false },
       { struct := [[true]], x := 1, y := 18, current := false },
       { struct := [List.replicate 8 true], x := 2, y := 18, current := false },
       { struct := [List.replicate 10 true], x := 0, y := 19, current := false }]) 18 = true ∧
    fullRow (updateGrid
      [{ struct := [[false, true], [true, false]], x := 0, y := 17, current := false },
       { struct := [[true]], x := 1, y := 18, current := false },
       { struct := [List.replicate 8 true], x := 2, y := 18, current := false },
       { struct := [List.replicate 10 true], x := 0, y := 19, current := false }]) 19 = true ∧
    checkLineCompletion 5
      { blocks :=
          [{ struct := [[false, true], [true, false]], x := 0, y := 17, current := false },
           { struct := [[true]], x := 1, y := 18, current := false },
           { struct := [List.replicate 8 true], x := 2, y := 18, current := false },
           { struct := [List.replicate 10 true], x := 0, y := 19, current := false }],
        score := 0, lines_completed := 0, level := 1, speed := 800 } =
      .ok { blocks := [
            { struct := [[false, true], [true, false]], x := 0, y := 17, current := false },
            { struct := [[true]], x := 1, y := 19, current := false },
            { struct := [List.replicate 8 true], x := 2, y := 19, current := false }],
            score := 5, lines_completed := 1, level := 1, speed := 800 } := by
  exact ⟨by rfl, by rfl, by rfl⟩

/-! Characterisation of the derived grid. -/

/-- One grid cell (row `r`, column `c`). -/
def gridCell (g : Grid) (r c : Nat) : Option (Nat × Nat) :=
  (((g.get? r).getD []).get? c).getD none

/-- The grid is a 20 × 10 table. -/
def GridShape (g : Grid) : Prop := g.length = 20 ∧ ∀ row ∈ g, row.length = 10

/-- The block occupies board cell (column `c`, row `r`). -/
def coversB (b : Block) (c r : Nat) : Bool :=
  (boardCells b).contains ((c : Int), (r : Int))

theorem coversB_iff {b : Block} {c r : Nat} :
    coversB b c r = true ↔
      ∃ q ∈ truePoints b.struct,
        b.x + (q.2 : Int) = (c : Int) ∧ b.y + (q.1 : Int) = (r : Int) := by
  unfold coversB
  rw [List.contains, List.elem_iff]
  unfold boardCells
  rw [List.mem_map]
  constructor
  · rintro ⟨q, hq, heq⟩
    injection heq with h1 h2
    exact ⟨q, hq, h1, h2⟩
  · rintro ⟨q, hq, h1, h2⟩
    exact ⟨q, hq, by rw [h1, h2]⟩

theorem gridShape_empty : GridShape emptyGrid := by
  constructor
  · rfl
  · intro row hrow
    rw [List.eq_of_mem_replicate hrow]
    rfl

theorem gridCell_empty {r c : Nat} : gridCell emptyGrid r c = none := by
  unfold gridCell emptyGrid
  simp only [List.get?_eq_getElem?, List.getElem?_replicate]
  split
  · rw [Option.getD_some, List.getElem?_replicate]
    split
    · rfl
    · rfl
  · rfl

theorem gridShape_gridSet {g : Grid} (h : GridShape g) {r c : Int} {v : Nat × Nat} :
    GridShape (gridSet g r c v) := by
  unfold gridSet
  split
  · rename_i hcond
    constructor
    · rw [List.length_set]; exact h.1
    · intro row hrow
      rcases List.mem_or_eq_of_mem_set hrow with hmem | rfl
      · exact h.2 row hmem
      · rw [List.length_set]
        rcases hg : g[r.toNat]? with _ | row0
        · rw [List.getElem?_eq_none_iff, h.1] at hg
          omega
        · rw [List.get?_eq_getElem?, hg, Option.getD_some]
          exact h.2 row0 (List.getElem?_mem hg)
  · exact h

theorem gridCell_gridSet_eq {g : Grid} (h : GridShape g) {r c : Int} {v : Nat × Nat}
    (hr0 : 0 ≤ r) (hr1 : r < 20) (hc0 : 0 ≤ c) (hc1 : c < 10) :
    gridCell (gridSet g r c v) r.toNat c.toNat = some v := by
  unfold gridSet gridCell
  rw [if_pos ⟨hr0, hr1, hc0, hc1⟩]
  simp only [List.get?_eq_getElem?]
  have hrlen : r.toNat < g.length := by rw [h.1]; omega
  rcases hg : g[r.toNat]? with _ | row
  · rw [List.getElem?_eq_none_iff] at hg; omega
  · have hrowlen : row.length = 10 := h.2 row (List.getElem?_mem hg)
    rw [Option.getD_some, List.getElem?_set, if_pos rfl, if_pos hrlen,
      Option.getD_some, List.getElem?_set, if_pos rfl, if_pos (by omega), Option.getD_some]

theorem gridCell_gridSet_ne {g : Grid} (h : GridShape g) {r c : Int} {v : Nat × Nat}
    {rp cp : Nat} (hne : ¬ (r = (rp : Int) ∧ c = (cp : Int))) :
    gridCell (gridSet g r c v) rp cp = gridCell g rp cp := by
  unfold gridSet
  split
  · rename_i hcond
    unfold gridCell
    simp only [List.get?_eq_getElem?]
    by_cases hrr : r.toNat = rp
    · have hreq : r = (rp : Int) := by omega
      have hcc : c.toNat ≠ cp := by
        intro hcx
        exact hne ⟨hreq, by omega⟩
      have hrlen : r.toNat < g.length := by rw [h.1]; omega
      rcases hg : g[r.toNat]? with _ | row
      · rw [List.getElem?_eq_none_iff] at hg; omega
      · rw [Option.getD_some, List.getElem?_set, if_pos hrr, if_pos hrlen,
          Option.getD_some, List.getElem?_set, if_neg hcc, ← hrr, hg, Option.getD_some]
    · rw [List.getElem?_set, if_neg hrr]
  · rfl

/-- Writing all cells of one block: the grid keeps its shape, a cell the
block occupies receives `(n, local row)`, and any other cell is
untouched. -/
theorem writePts_spec {n : Nat} {b : Block} :
    ∀ (pts : List (Nat × Nat)) (g0 : Grid), GridShape g0 → ∀ {r c : Nat}, r < 20 → c < 10 →
    GridShape (pts.foldl
      (fun g q => gridSet g (b.y + (q.1 : Int)) (b.x + (q.2 : Int)) (n, q.1)) g0) ∧
    ((∃ q ∈ pts, b.x + (q.2 : Int) = (c : Int) ∧ b.y + (q.1 : Int) = (r : Int)) →
      gridCell (pts.foldl
        (fun g q => gridSet g (b.y + (q.1 : Int)) (b.x + (q.2 : Int)) (n, q.1)) g0) r c =
        some (n, ((r : Int) - b.y).toNat)) ∧
    ((¬ ∃ q ∈ pts, b.x + (q.2 : Int) = (c : Int) ∧ b.y + (q.1 : Int) = (r : Int)) →
      gridCell (pts.foldl
        (fun g q => gridSet g (b.y + (q.1 : Int)) (b.x + (q.2 : Int)) (n, q.1)) g0) r c =
        gridCell g0 r c) := by
  intro pts
  induction pts with
  | nil =>
    intro g0 hsh r c hr hc
    exact ⟨hsh, fun hex => absurd hex (by simp), fun _ => rfl⟩
  | cons q rest ih =>
    intro g0 hsh r c hr hc
    rw [List.foldl_cons]
    have hsh1 : GridShape (gridSet g0 (b.y + (q.1 : Int)) (b.x + (q.2 : Int)) (n, q.1)) :=
      gridShape_gridSet hsh
    have hrec := ih (gridSet g0 (b.y + (q.1 : Int)) (b.x + (q.2 : Int)) (n, q.1)) hsh1 hr hc
    refine ⟨hrec.1, ?_, ?_⟩
    · rintro ⟨q0, hq0, hq0c, hq0r⟩
      rcases List.mem_cons.1 hq0 with rfl | hq0rest
      · by_cases hrest : ∃ q ∈ rest,
            b.x + (q.2 : Int) = (c : Int) ∧ b.y + (q.1 : Int) = (r : Int)
        · exact hrec.2.1 hrest
        · rw [hrec.2.2 hrest]
          have hq1 : q0.1 = ((r : Int) - b.y).toNat := by omega
          have hcell : gridCell (gridSet g0 (b.y + (q0.1 : Int)) (b.x + (q0.2 : Int))
              (n, q0.1)) (b.y + (q0.1 : Int)).toNat (b.x + (q0.2 : Int)).toNat =
              some (n, q0.1) :=
            gridCell_gridSet_eq hsh (by omega) (by omega) (by omega) (by omega)
          have hrn : (b.y + (q0.1 : Int)).toNat = r := by omega
          have hcn : (b.x + (q0.2 : Int)).toNat = c := by omega
          rw [hrn, hcn] at hcell
          rw [← hq1]
          exact hcell
      · exact hrec.2.1 ⟨q0, hq0rest, hq0c, hq0r⟩
    · intro hnex
      have hq : ¬ (b.x + (q.2 : Int) = (c : Int) ∧ b.y + (q.1 : Int) = (r : Int)) :=
        fun hqm => hnex ⟨q, List.mem_cons_self _ _, hqm⟩
      have hrest : ¬ ∃ q0 ∈ rest,
          b.x + (q0.2 : Int) = (c : Int) ∧ b.y + (q0.1 : Int) = (r : Int) :=
        fun ⟨q0, hq0, hm⟩ => hnex ⟨q0, List.mem_cons_of_mem _ hq0, hm⟩
      rw [hrec.2.2 hrest]
      exact gridCell_gridSet_ne hsh (by
        intro hcon
        exact hq ⟨by omega, by omega⟩)

/-- The enumerated fold of `update_grid`: a `some (i, yoff)` cell comes
from the initial grid or from block `i` covering it with local row
`yoff`; a `none` cell is uncovered; a covered cell is occupied. -/
theorem updateGrid_aux {r c : Nat} (hr : r < 20) (hc : c < 10) :
    ∀ (bs : List Block) (n : Nat) (g0 : Grid), GridShape g0 →
    GridShape ((List.enumFrom n bs).foldl (fun g p =>
      (truePoints p.2.struct).foldl
        (fun g q => gridSet g (p.2.y + (q.1 : Int)) (p.2.x + (q.2 : Int)) (p.1, q.1)) g) g0) ∧
    (∀ i yoff, gridCell ((List.enumFrom n bs).foldl (fun g p =>
        (truePoints p.2.struct).foldl
          (fun g q => gridSet g (p.2.y + (q.1 : Int)) (p.2.x + (q.2 : Int)) (p.1, q.1)) g) g0)
        r c = some (i, yoff) →
      gridCell g0 r c = some (i, yoff) ∨
      ∃ k b, bs.get? k = some b ∧ i = n + k ∧ coversB b c r = true ∧
        (yoff : Int) = (r : Int) - b.y) ∧
    (gridCell ((List.enumFrom n bs).foldl (fun g p =>
        (truePoints p.2.struct).foldl
          (fun g q => gridSet g (p.2.y + (q.1 : Int)) (p.2.x + (q.2 : Int)) (p.1, q.1)) g) g0)
        r c = none →
      gridCell g0 r c = none ∧ ∀ b ∈ bs, coversB b c r = false) ∧
    ((∃ b ∈ bs, coversB b c r = true) →
      (gridCell ((List.enumFrom n bs).foldl (fun g p =>
        (truePoints p.2.struct).foldl
          (fun g q => gridSet g (p.2.y + (q.1 : Int)) (p.2.x + (q.2 : Int)) (p.1, q.1)) g) g0)
        r c).isSome = true) := by
  intro bs
  induction bs with
  | nil =>
    intro n g0 hsh
    exact ⟨hsh, fun i yoff h => Or.inl h, fun h => ⟨h, fun b hb => absurd hb (by simp)⟩,
      fun hex => absurd hex (by simp)⟩
  | cons b rest ih =>
    intro n g0 hsh
    rw [List.enumFrom_cons, List.foldl_cons]
    have hw := writePts_spec (n := n) (b := b) (truePoints b.struct) g0 hsh hr hc
    have hrec := ih (n + 1) _ hw.1
    have hg1cell : ∀ v, gridCell ((truePoints b.struct).foldl
        (fun g q => gridSet g (b.y + (q.1 : Int)) (b.x + (q.2 : Int)) (n, q.1)) g0) r c = v →
        (coversB b c r = true → v = some (n, ((r : Int) - b.y).toNat)) ∧
        (coversB b c r = false → v = gridCell g0 r c) := by
      intro v hv
      constructor
      · intro hcov
        rw [← hv]
        exact (hw.2.1 (coversB_iff.1 hcov)).symm ▸ rfl
      · intro hncov
        rw [← hv]
        refine hw.2.2 ?_
        intro hex
        rw [coversB_iff.2 hex] at hncov
        cases hncov
    refine ⟨hrec.1, ?_, ?_, ?_⟩
    · intro i yoff hcell
      rcases hrec.2.1 i yoff hcell with hup | ⟨k, b0, hk, hik, hcov, hyoff⟩
      · rcases hcb : coversB b c r with _ | _
        · have := (hg1cell _ hup).2 hcb
          left
          rw [← this]
        · have := (hg1cell _ hup).1 hcb
          injection this with h1
          injection h1 with h1a h1b
          right
          refine ⟨0, b, rfl, by omega, hcb, ?_⟩
          have hyy : b.y ≤ (r : Int) := by
            rcases coversB_iff.1 hcb with ⟨q, -, -, hqr⟩
            omega
          omega
      · right
        exact ⟨k + 1, b0, by rw [← hk]; rfl, by omega, hcov, hyoff⟩
    · intro hcell
      rcases hrec.2.2.1 hcell with ⟨hg1, hrest⟩
      rcases hcb : coversB b c r with _ | _
      · have := (hg1cell _ hg1).2 hcb
        refine ⟨by rw [← this], ?_⟩
        intro b0 hb0
        rcases List.mem_cons.1 hb0 with rfl | hb0r
        · exact hcb
        · exact hrest b0 hb0r
      · have := (hg1cell _ hg1).1 hcb
        cases this
    · rintro ⟨b0, hb0, hcov⟩
      rcases List.mem_cons.1 hb0 with rfl | hb0r
      · rcases hfin : gridCell ((List.enumFrom (n + 1) rest).foldl (fun g p =>
            (truePoints p.2.struct).foldl
              (fun g q => gridSet g (p.2.y + (q.1 : Int)) (p.2.x + (q.2 : Int)) (p.1, q.1)) g)
            ((truePoints b0.struct).foldl
              (fun g q => gridSet g (b0.y + (q.1 : Int)) (b0.x + (q.2 : Int)) (n, q.1)) g0))
            r c with _ | v
        · rcases hrec.2.2.1 hfin with ⟨hg1, -⟩
          have := (hg1cell _ hg1).1 hcov
          cases this
        · rw [hfin]; rfl
      · exact hrec.2.2.2 ⟨b0, hb0r, hcov⟩

/-- The characterisation of `update_grid` itself: every occupied cell
names a block of the list that covers it together with that block's local
row, and every covered cell is occupied. -/
theorem updateGrid_spec (bs : List Block) {r c : Nat} (hr : r < 20) (hc : c < 10) :
    GridShape (updateGrid bs) ∧
    (∀ i yoff, gridCell (updateGrid bs) r c = some (i, yoff) →
      ∃ b, bs.get? i = some b ∧ coversB b c r = true ∧ (yoff : Int) = (r : Int) - b.y) ∧
    ((∃ b ∈ bs, coversB b c r = true) → (gridCell (updateGrid bs) r c).isSome = true) ∧
    (gridCell (updateGrid bs) r c = none → ∀ b ∈ bs, coversB b c r = false) := by
  have haux := updateGrid_aux hr hc bs 0 emptyGrid gridShape_empty
  have hdef : updateGrid bs = (List.enumFrom 0 bs).foldl (fun g p =>
      (truePoints p.2.struct).foldl
        (fun g q => gridSet g (p.2.y + (q.1 : Int)) (p.2.x + (q.2 : Int)) (p.1, q.1)) g)
      emptyGrid := rfl
  rw [hdef]
  refine ⟨haux.1, ?_, haux.2.2.2, fun hnone => (haux.2.2.1 hnone).2⟩
  intro i yoff hcell
  rcases haux.2.1 i yoff hcell with hup | ⟨k, b, hk, hik, hcov, hyoff⟩
  · rw [gridCell_empty] at hup; cases hup
  · exact ⟨b, by rw [show i = k by omega]; exact hk, hcov, hyoff⟩

theorem fullRow_iff {g : Grid} (hsh : GridShape g) {r : Nat} (hr : r < 20) :
    fullRow g r = true ↔ ∀ c < 10, (gridCell g r c).isSome = true := by
  unfold fullRow gridCell
  simp only [List.get?_eq_getElem?]
  rcases hg : g[r]? with _ | row
  · rw [List.getElem?_eq_none_iff, hsh.1] at hg
    omega
  · have hlen : row.length = 10 := hsh.2 row (List.getElem?_mem hg)
    simp only [Option.getD_some, List.all_eq_true]
    constructor
    · intro h c hc
      rcases hrc : row[c]? with _ | cell
      · rw [List.getElem?_eq_none_iff] at hrc; omega
      · exact h cell (List.getElem?_mem hrc)
    · intro h cell hcell
      rcases List.getElem?_of_mem hcell with ⟨c, hc⟩
      have hc10 : c < 10 := by
        by_contra hcx
        rw [List.getElem?_eq_none (by omega)] at hc
        cases hc
      have := h c hc10
      rw [hc, Option.getD_some] at this
      exact this

theorem firstFullRow_19 {g : Grid} (h19 : fullRow g 19 = true) :
    firstFullRowFromBottom g = some 19 := by
  unfold firstFullRowFromBottom
  rw [List.range_succ_eq_map 19, List.find?_cons_of_pos _ (by simpa using h19)]
  rfl

/-- A flat settled piece at row `y`: one matrix row with a true cell,
within the board's columns. -/
def FlatAt (b : Block) (y : Int) : Prop :=
  b.current = false ∧ nrows b.struct = 1 ∧ anyCell b.struct = true ∧
  0 ≤ b.x ∧ b.x + ncols b.struct ≤ 10 ∧ b.y = y

instance (b : Block) (y : Int) : Decidable (FlatAt b y) := by
  unfold FlatAt
  infer_instance

/-- Two blocks occupy disjoint sets of board cells. -/
def BDisj (a b : Block) : Prop := ∀ p : Int × Int, p ∈ boardCells a → p ∉ boardCells b

theorem bdisj_symm {a b : Block} (h : BDisj a b) : BDisj b a :=
  fun p hpb hpa => h p hpa hpb

theorem flat_cell_row {b : Block} {y : Int} (hb : FlatAt b y) {p : Int × Int}
    (hp : p ∈ boardCells b) : p.2 = y := by
  rcases mem_boardCells.1 hp with ⟨i, j, hc, rfl⟩
  have hi := cellAt_row_lt hc
  rw [hb.2.1] at hi
  have : i = 0 := by omega
  subst this
  simp [hb.2.2.2.2.2]

theorem flat_covers_row {b : Block} {y : Int} (hb : FlatAt b y) {c r : Nat}
    (hcov : coversB b c r = true) : (r : Int) = y := by
  rcases coversB_iff.1 hcov with ⟨q, hq, -, hqr⟩
  have hcell := mem_truePoints.1 hq
  have hi := cellAt_row_lt hcell
  rw [hb.2.1] at hi
  have hby : b.y = y := hb.2.2.2.2.2
  omega

theorem cellAt_zero_col_lt {m : Mat} {j : Nat} (hc : cellAt m 0 j = true) :
    j < ncols m := by
  rcases m with _ | ⟨row, rest⟩
  · simp [cellAt] at hc
  · have hn : ncols (row :: rest) = row.length := rfl
    rw [hn]
    rcases hr : row[j]? with _ | v
    · simp [cellAt, List.get?_eq_getElem?, hr] at hc
    · by_contra hx
      rw [List.getElem?_eq_none (by omega)] at hr
      cases hr

/-- A flat block within the columns covers one of the ten board columns of
its row. -/
theorem flat_covers_some {b : Block} {y : Int} (hb : FlatAt b y) (hy : 0 ≤ y) :
    ∃ c : Nat, c < 10 ∧ coversB b c y.toNat = true := by
  rcases anyCell_iff.1 hb.2.2.1 with ⟨i, j, hc⟩
  have hi := cellAt_row_lt hc
  rw [hb.2.1] at hi
  have hi0 : i = 0 := by omega
  subst hi0
  have hj : j < ncols b.struct := cellAt_zero_col_lt hc
  have hx0 : 0 ≤ b.x := hb.2.2.2.1
  have hxn : b.x + ncols b.struct ≤ 10 := hb.2.2.2.2.1
  have hby : b.y = y := hb.2.2.2.2.2
  refine ⟨(b.x + (j : Int)).toNat, by omega, ?_⟩
  apply coversB_iff.2
  refine ⟨(0, j), mem_truePoints.2 hc, by omega, by omega⟩

theorem mem_dedupFirst {l : List (Nat × Nat)} {p : Nat × Nat} :
    p ∈ dedupFirst l ↔ p ∈ l := by
  have key : ∀ (l : List (Nat × Nat)) (acc : List (Nat × Nat)),
      p ∈ l.foldl (fun acc p => if acc.contains p then acc else acc ++ [p]) acc ↔
        p ∈ acc ∨ p ∈ l := by
    intro l
    induction l with
    | nil => intro acc; simp
    | cons q rest ih =>
      intro acc
      rw [List.foldl_cons]
      rcases hq : acc.contains q with _ | _
      · rw [show (if (false : Bool) = true then acc else acc ++ [q]) = acc ++ [q] from rfl, ih]
        simp only [List.mem_append, List.mem_singleton, List.mem_cons]
        tauto
      · rw [show (if (true : Bool) = true then acc else acc ++ [q]) = acc from rfl, ih]
        simp only [List.mem_cons]
        constructor
        · tauto
        · rintro (h | h | h)
          · exact Or.inl h
          · subst h
            exact Or.inl (List.elem_iff.1 hq)
          · exact Or.inr h
  rw [dedupFirst, key]
  simp

/-- Every `affected_blocks` entry of row `r` is an occupied grid cell of
that row. -/
theorem affectedOf_mem {g : Grid} (hsh : GridShape g) {r : Nat} (hr : r < 20)
    {v : Nat × Nat} (hv : v ∈ affectedOf g r) :
    ∃ c, c < 10 ∧ gridCell g r c = some v := by
  unfold affectedOf at hv
  rw [mem_dedupFirst, List.mem_filterMap] at hv
  rcases hv with ⟨cell, hcell, hid⟩
  rcases List.getElem?_of_mem hcell with ⟨c, hc⟩
  have hrow : ((g.get? r).getD []).length = 10 := by
    rcases hg : g[r]? with _ | row
    · rw [List.getElem?_eq_none_iff, hsh.1] at hg
      omega
    · rw [List.get?_eq_getElem?, hg, Option.getD_some]
      exact hsh.2 row (List.getElem?_mem hg)
  refine ⟨c, ?_, ?_⟩
  · by_contra hx
    rw [List.getElem?_eq_none (by omega)] at hc
    cases hc
  · unfold gridCell
    simp only [List.get?_eq_getElem?] at hc ⊢
    rw [hc, Option.getD_some]
    exact hid

/-- Conversely, every occupied cell of row `r` contributes its entry. -/
theorem affectedOf_of_cell {g : Grid} {r c : Nat} {v : Nat × Nat}
    (hcell : gridCell g r c = some v) : v ∈ affectedOf g r := by
  unfold affectedOf
  rw [mem_dedupFirst, List.mem_filterMap]
  unfold gridCell at hcell
  simp only [List.get?_eq_getElem?] at hcell
  rcases hrc : ((g[r]?).getD [])[c]? with _ | cell
  · rw [hrc] at hcell
    exact absurd hcell (by simp)
  · rw [hrc, Option.getD_some] at hcell
    refine ⟨cell, ?_, by rw [hcell]; rfl⟩
    rw [List.get?_eq_getElem?]
    exact List.getElem?_mem hrc

/-- When every affected entry names a block that empties after its row
deletion, the block list survives unchanged and the removal set collects
exactly the affected indices. -/
theorem processAffected_allRemoved {bs : List Block} {aff : List (Nat × Nat)}
    (hall : ∀ p ∈ aff, ∀ b, bs.get? p.1 = some b →
      anyCell (deleteRow p.2 b.struct) = false) :
    (processAffected bs aff).1 = bs ∧
    (∀ i, i ∈ (processAffected bs aff).2 ↔
      ∃ p ∈ aff, p.1 = i ∧ ∃ b, bs.get? p.1 = some b) := by
  have key : ∀ (aff : List (Nat × Nat)) (r0 : List Nat),
      (∀ p ∈ aff, ∀ b, bs.get? p.1 = some b →
        anyCell (deleteRow p.2 b.struct) = false) →
      (aff.foldl (fun acc p =>
        match acc.1.get? p.1 with
        | none => acc
        | some b =>
          let s := deleteRow p.2 b.struct
          if anyCell s then
            let r := del_empty_columns s
            (acc.1.set p.1 { b with struct := r.1, x := b.x + (r.2 : Int) }, acc.2)
          else (acc.1, p.1 :: acc.2)) (bs, r0)).1 = bs ∧
      (∀ i, i ∈ (aff.foldl (fun acc p =>
        match acc.1.get? p.1 with
        | none => acc
        | some b =>
          let s := deleteRow p.2 b.struct
          if anyCell s then
            let r := del_empty_columns s
            (acc.1.set p.1 { b with struct := r.1, x := b.x + (r.2 : Int) }, acc.2)
          else (acc.1, p.1 :: acc.2)) (bs, r0)).2 ↔
        i ∈ r0 ∨ ∃ p ∈ aff, p.1 = i ∧ ∃ b, bs.get? p.1 = some b) := by
    intro aff
    induction aff with
    | nil =>
      intro r0 hall
      refine ⟨rfl, fun i => ?_⟩
      simp
    | cons p rest ih =>
      intro r0 hall
      rw [List.foldl_cons]
      rcases hg : bs.get? p.1 with _ | b
      · simp only [hg]
        have hrec := ih r0 (fun p' hp' => hall p' (List.mem_cons_of_mem _ hp'))
        refine ⟨hrec.1, fun i => ?_⟩
        rw [hrec.2 i]
        constructor
        · rintro (h | h)
          · exact Or.inl h
          · rcases h with ⟨p', hp', hieq, hb⟩
            exact Or.inr ⟨p', List.mem_cons_of_mem _ hp', hieq, hb⟩
        · rintro (h | ⟨p', hp', hieq, b', hb'⟩)
          · exact Or.inl h
          · rcases List.mem_cons.1 hp' with rfl | hp'r
            · rw [hg] at hb'
              cases hb'
            · exact Or.inr ⟨p', hp'r, hieq, b', hb'⟩
      · simp only [hg]
        rw [if_neg (by rw [hall p (List.mem_cons_self _ _) b hg]; simp)]
        have hrec := ih (p.1 :: r0) (fun p' hp' => hall p' (List.mem_cons_of_mem _ hp'))
        refine ⟨hrec.1, fun i => ?_⟩
        rw [hrec.2 i]
        simp only [List.mem_cons]
        constructor
        · rintro ((h | h) | h)
          · exact Or.inr ⟨p, Or.inl rfl, h.symm, b, hg⟩
          · exact Or.inl h
          · rcases h with ⟨p', hp', hieq, hb⟩
            exact Or.inr ⟨p', Or.inr hp', hieq, hb⟩
        · rintro (h | ⟨p', hp', hieq, b', hb'⟩)
          · exact Or.inl (Or.inr h)
          · rcases hp' with rfl | hp'r
            · exact Or.inl (Or.inl hieq.symm)
            · exact Or.inr ⟨p', hp'r, hieq, b', hb'⟩
  have hdef : processAffected bs aff = aff.foldl (fun acc p =>
      match acc.1.get? p.1 with
      | none => acc
      | some b =>
        let s := deleteRow p.2 b.struct
        if anyCell s then
          let r := del_empty_columns s
          (acc.1.set p.1 { b with struct := r.1, x := b.x + (r.2 : Int) }, acc.2)
        else (acc.1, p.1 :: acc.2)) (bs, []) := rfl
  have h0 := key aff [] hall
  rw [hdef]
  exact ⟨h0.1, fun i => by rw [h0.2 i]; simp⟩

/-- A block at an index outside the removal set survives `removeIdxs`. -/
theorem removeIdxs_mem_of {bs : List Block} {rem : List Nat} {i : Nat} {b : Block}
    (hg : bs.get? i = some b) (hi : ¬ i ∈ rem) : b ∈ removeIdxs bs rem := by
  unfold removeIdxs
  rw [List.mem_map]
  refine ⟨(i, b), ?_, rfl⟩
  rw [List.mem_filter]
  refine ⟨List.mk_mem_enum_iff_getElem?.2 (by rw [← List.get?_eq_getElem?]; exact hg), ?_⟩
  simp only [Bool.not_eq_true']
  rcases hcon : rem.contains i with _ | _
  · rfl
  · exact absurd (List.elem_iff.1 hcon) hi

/-- `removeIdxs` keeps the original order: it is a sublist. -/
theorem removeIdxs_sublist (bs : List Block) (rem : List Nat) :
    (removeIdxs bs rem).Sublist bs := by
  unfold removeIdxs
  have h1 : ((bs.enum.filter (fun p => !rem.contains p.1)).map Prod.snd).Sublist
      (bs.enum.map Prod.snd) :=
    List.Sublist.map _ (List.filter_sublist _)
  rwa [List.enum_map_snd] at h1

/-- When every valid index is removed, nothing survives. -/
theorem removeIdxs_eq_nil {bs : List Block} {rem : List Nat}
    (h : ∀ i b, bs.get? i = some b → i ∈ rem) : removeIdxs bs rem = [] := by
  unfold removeIdxs
  rw [List.map_eq_nil_iff, List.filter_eq_nil_iff]
  rintro ⟨i, b⟩ hmem
  have hg : bs.get? i = some b := by
    rw [List.get?_eq_getElem?]
    exact List.mk_mem_enum_iff_getElem?.1 hmem
  simp only [Bool.not_eq_true', Bool.not_eq_false]
  exact List.elem_iff.2 (h i b hg)

/-- Dropping a settled flat piece of row 18 one row: where it lands. -/
def shift19 (b : Block) : Block := { b with y := 19 }

theorem flat_cells_shift {b : Block} (hb : FlatAt b 18) {x2 y2 : Int} (hx2 : x2 = b.x)
    {p : Int × Int} (hp : p ∈ boardCells { b with x := x2, y := y2 }) :
    p.2 = y2 ∧ (p.1, (18 : Int)) ∈ boardCells b := by
  rcases mem_boardCells.1 hp with ⟨i, j, hc, rfl⟩
  have hi := cellAt_row_lt hc
  rw [show nrows ({ b with x := x2, y := y2 } : Block).struct = nrows b.struct from rfl,
    hb.2.1] at hi
  have hi0 : i = 0 := by omega
  subst hi0
  have hby : b.y = 18 := hb.2.2.2.2.2
  refine ⟨?_, ?_⟩
  · show y2 + ((0 : Nat) : Int) = y2
    simp
  refine mem_boardCells.2 ⟨0, j, hc, ?_⟩
  simp only [Prod.mk.injEq]
  constructor
  · omega
  · omega

theorem flat_dropLoop {b : Block} {others : List Block} (hb : FlatAt b 18)
    (hcol : collide { b with x := b.x + 0, y := b.y + 1 } others = false) :
    dropLoop 21 b others = shift19 b := by
  have hby : b.y = 18 := hb.2.2.2.2.2
  have hx0 : 0 ≤ b.x := hb.2.2.2.1
  have hxn : b.x + ncols b.struct ≤ 10 := hb.2.2.2.2.1
  have hnr : nrows b.struct = 1 := hb.2.1
  have hoob1 : isOutOfBounds { b with x := b.x + 0, y := b.y + 1 } = false := by
    simp only [isOutOfBounds, Bool.or_eq_false_iff, decide_eq_false_iff_not]
    refine ⟨⟨?_, ?_⟩, ?_⟩
    · show ¬ (10 : Int) < b.x + 0 + ncols b.struct
      omega
    · show ¬ b.x + 0 < 0
      omega
    · show ¬ (20 : Int) < b.y + 1 + nrows b.struct
      omega
  have hmv1 : move b others 0 1 = ({ b with x := b.x + 0, y := b.y + 1 }, .moved) := by
    unfold move
    simp only [hcol, hoob1, Bool.or_self]
    rfl
  have hoob2 : isOutOfBounds { b with x := b.x + 0 + 0, y := b.y + 1 + 1 } = true := by
    simp only [isOutOfBounds, Bool.or_eq_true, decide_eq_true_eq]
    right
    show (20 : Int) < b.y + 1 + 1 + nrows b.struct
    omega
  have hmv2 : move { b with x := b.x + 0, y := b.y + 1 } others 0 1 =
      ({ b with x := b.x + 0, y := b.y + 1, current := false }, .bottomReached) := by
    unfold move
    simp only [hoob2, Bool.or_true, if_true]
    rfl
  have h21 : dropLoop 21 b others = dropLoop 20 { b with x := b.x + 0, y := b.y + 1 } others := by
    rw [show (21 : Nat) = 20 + 1 from rfl, dropLoop, hmv1]
  have h20 : dropLoop 20 { b with x := b.x + 0, y := b.y + 1 } others =
      { b with x := b.x + 0, y := b.y + 1, current := false } := by
    rw [show (20 : Nat) = 19 + 1 from rfl, dropLoop, hmv2]
  rw [h21, h20]
  have hcur : b.current = false := hb.1
  cases b with
  | mk st x y cur =>
    simp only [shift19, Block.mk.injEq]
    simp only at hby hcur
    exact ⟨trivial, by omega, by omega, hcur.symm⟩

theorem getIdx_disj {bs : List Block} (hdisj : List.Pairwise BDisj bs)
    {i j : Nat} {bi bj : Block} (hne : i ≠ j)
    (hgi : bs.get? i = some bi) (hgj : bs.get? j = some bj) : BDisj bi bj := by
  rw [List.get?_eq_getElem?] at hgi hgj
  have hi : i < bs.length := by
    by_contra hx
    rw [List.getElem?_eq_none (by omega)] at hgi
    cases hgi
  have hj : j < bs.length := by
    by_contra hx
    rw [List.getElem?_eq_none (by omega)] at hgj
    cases hgj
  have hbi : bs[i] = bi := by
    rw [List.getElem?_eq_getElem hi] at hgi
    injection hgi
  have hbj : bs[j] = bj := by
    rw [List.getElem?_eq_getElem hj] at hgj
    injection hgj
  rcases Nat.lt_or_ge i j with hij | hij
  · have := List.pairwise_iff_getElem.1 hdisj i j hi hj hij
    rwa [hbi, hbj] at this
  · have hji : j < i := by omega
    have := List.pairwise_iff_getElem.1 hdisj j i hj hi hji
    rw [hbi, hbj] at this
    exact bdisj_symm this

/-- The settling pass on a board of disjoint flat row-18 pieces drops each
piece exactly one row, to the floor. -/
theorem flat_gravityPass {bs : List Block} (hflat : ∀ b ∈ bs, FlatAt b 18)
    (hdisj : List.Pairwise BDisj bs) :
    gravityPass bs = bs.map shift19 := by
  have key : ∀ (m k : Nat), k + m = bs.length →
      ∀ (cur : List Block), cur.length = bs.length →
      (∀ j, j < k → cur.get? j = (bs.get? j).map shift19) →
      (∀ j, k ≤ j → cur.get? j = bs.get? j) →
      (List.range' k m).foldl (fun bs2 i =>
        match bs2.get? i with
        | none => bs2
        | some b => if b.current then bs2 else bs2.set i (dropLoop 21 b (bs2.eraseIdx i)))
        cur = bs.map shift19 := by
    intro m
    induction m with
    | zero =>
      intro k hk cur hlen hsh hun
      rw [show List.range' k 0 = ([] : List Nat) from rfl, List.foldl_nil]
      apply List.ext_get?
      intro n
      rcases Nat.lt_or_ge n bs.length with hn | hn
      · rw [hsh n (by omega), List.get?_eq_getElem?, List.get?_eq_getElem?,
          List.getElem?_map]
      · rw [List.get?_eq_getElem?, List.get?_eq_getElem?,
          List.getElem?_eq_none (by omega),
          List.getElem?_eq_none (by rw [List.length_map]; omega)]
    | succ m ih =>
      intro k hk cur hlen hsh hun
      rw [show List.range' k (m + 1) = k :: List.range' (k + 1) m from rfl, List.foldl_cons]
      have hklen : k < bs.length := by omega
      rcases hgb : bs.get? k with _ | b
      · rw [List.get?_eq_getElem?, List.getElem?_eq_none_iff] at hgb
        omega
      have hcurk : cur.get? k = some b := by rw [hun k (le_refl k), hgb]
      have hbmem : b ∈ bs := by
        rw [List.get?_eq_getElem?] at hgb
        exact List.getElem?_mem hgb
      have hbflat : FlatAt b 18 := hflat b hbmem
      rw [hcurk]
      rw [show (match (some b : Option Block) with
        | none => cur
        | some b => if b.current then cur else cur.set k (dropLoop 21 b (cur.eraseIdx k))) =
        (if b.current then cur else cur.set k (dropLoop 21 b (cur.eraseIdx k))) from rfl]
      rw [if_neg (by rw [hbflat.1]; exact Bool.false_ne_true)]
      have hcol : collide { b with x := b.x + 0, y := b.y + 1 } (cur.eraseIdx k) = false := by
        rw [collide, List.any_eq_false]
        intro o ho
        rcases List.getElem?_of_mem ho with ⟨jp, hjp⟩
        rw [List.getElem?_eraseIdx] at hjp
        intro hov
        rcases overlaps_iff.1 hov with ⟨p, hp1, hp2⟩
        have hm1 := flat_cells_shift hbflat (by omega) hp1
        split at hjp
        · rename_i hjk
          have hco : cur.get? jp = some o := by rw [List.get?_eq_getElem?]; exact hjp
          rw [hsh jp (by omega)] at hco
          rcases hb0 : bs.get? jp with _ | b0
          · rw [hb0] at hco; cases hco
          rw [hb0] at hco
          injection hco with hco
          have hb0mem : b0 ∈ bs := by
            rw [List.get?_eq_getElem?] at hb0
            exact List.getElem?_mem hb0
          have hb0flat : FlatAt b0 18 := hflat b0 hb0mem
          rw [← hco] at hp2
          have hp2' : p ∈ boardCells { b0 with x := b0.x, y := (19 : Int) } := hp2
          have ho18 := (flat_cells_shift hb0flat rfl hp2').2
          exact getIdx_disj hdisj (by omega) hgb hb0 (p.1, (18 : Int)) hm1.2 ho18
        · rename_i hjk
          have hco : cur.get? (jp + 1) = some o := by rw [List.get?_eq_getElem?]; exact hjp
          rw [hun (jp + 1) (by omega)] at hco
          have homem : o ∈ bs := by
            rw [List.get?_eq_getElem?] at hco
            exact List.getElem?_mem hco
          have hoflat : FlatAt o 18 := hflat o homem
          have h18 := flat_cell_row hoflat hp2
          have h19 := hm1.1
          have hby : b.y = 18 := hbflat.2.2.2.2.2
          omega
      rw [flat_dropLoop hbflat hcol]
      apply ih (k + 1) (by omega) (cur.set k (shift19 b)) (by rw [List.length_set]; exact hlen)
      · intro j hj
        rcases Nat.lt_or_ge j k with hjk | hjk
        · rw [List.get?_eq_getElem?, List.getElem?_set, if_neg (by omega),
            ← List.get?_eq_getElem?]
          exact hsh j hjk
        · have hjeq : j = k := by omega
          subst hjeq
          rw [List.get?_eq_getElem?, List.getElem?_set, if_pos rfl, if_pos (by omega), hgb]
          rfl
      · intro j hj
        rw [List.get?_eq_getElem?, List.getElem?_set, if_neg (by omega),
          ← List.get?_eq_getElem?]
        exact hun j (by omega)
  have hdef : gravityPass bs = (List.range bs.length).foldl (fun bs2 i =>
      match bs2.get? i with
      | none => bs2
      | some b => if b.current then bs2 else bs2.set i (dropLoop 21 b (bs2.eraseIdx i)))
      bs := rfl
  rw [hdef, List.range_eq_range']
  exact key bs.length 0 (by omega) bs rfl (fun j hj => absurd hj (by omega))
    (fun j hj => rfl)

theorem coversB_boardCells {b : Block} {c r : Nat} (h : coversB b c r = true) :
    ((c : Int), (r : Int)) ∈ boardCells b := by
  rcases coversB_iff.1 h with ⟨⟨i, j⟩, hq, h1, h2⟩
  exact mem_boardCells.2 ⟨i, j, mem_truePoints.1 hq, by rw [← h1, ← h2]⟩

theorem bdisj_of_overlaps_false {a b : Block} (h : overlaps a b = false) : BDisj a b := by
  intro p hpa hpb
  exact absurd (overlaps_iff.2 ⟨p, hpa, hpb⟩) (by rw [h]; exact Bool.false_ne_true)

theorem shift19_flatAt {b : Block} (hb : FlatAt b 18) : FlatAt (shift19 b) 19 :=
  ⟨hb.1, hb.2.1, hb.2.2.1, hb.2.2.2.1, hb.2.2.2.2.1, rfl⟩

theorem shift19_bdisj {a b : Block} (ha : FlatAt a 18) (hb : FlatAt b 18)
    (h : BDisj a b) : BDisj (shift19 a) (shift19 b) := by
  intro p hpa hpb
  have hpa2 : p ∈ boardCells { a with x := a.x, y := (19 : Int) } := hpa
  have hpb2 : p ∈ boardCells { b with x := b.x, y := (19 : Int) } := hpb
  exact h (p.1, (18 : Int)) (flat_cells_shift ha rfl hpa2).2 (flat_cells_shift hb rfl hpb2).2

theorem shift19_covers {b : Block} {c : Nat} (hb : FlatAt b 18)
    (h : coversB b c 18 = true) : coversB (shift19 b) c 19 = true := by
  rcases coversB_iff.1 h with ⟨⟨i, j⟩, hq, h1, h2⟩
  have hi : i < nrows b.struct := cellAt_row_lt (mem_truePoints.1 hq)
  rw [hb.2.1] at hi
  have hi0 : i = 0 := by omega
  subst hi0
  apply coversB_iff.2
  refine ⟨(0, j), hq, h1, ?_⟩
  show (19 : Int) + ((0 : Nat) : Int) = ((19 : Nat) : Int)
  decide

theorem flat_filter_18 {bs : List Block}
    (hflat : ∀ b ∈ bs, FlatAt b 18 ∨ FlatAt b 19) :
    ∀ b ∈ bs.filter (fun b => !decide (b.y = (19 : Int))), FlatAt b 18 := by
  intro b hb
  rw [List.mem_filter] at hb
  rcases hflat b hb.1 with hf | hf
  · exact hf
  · exfalso
    have hb2 : (!decide (b.y = (19 : Int))) = true := hb.2
    rw [hf.2.2.2.2.2] at hb2
    simp at hb2

/-- `removeIdxs` through a membership description of the removal set: when
index membership is equivalent to a predicate on the block stored there,
removing those indices is filtering by the predicate's negation. -/
theorem removeIdxs_filter {bs : List Block} {rem : List Nat} (p : Block → Bool)
    (h : ∀ i b, bs.get? i = some b → (i ∈ rem ↔ p b = true)) :
    removeIdxs bs rem = bs.filter (fun b => !p b) := by
  have key : ∀ (l : List Block) (n : Nat),
      (∀ k b, l.get? k = some b → ((n + k) ∈ rem ↔ p b = true)) →
      ((l.enumFrom n).filter (fun q => !rem.contains q.1)).map Prod.snd =
        l.filter (fun b => !p b) := by
    intro l
    induction l with
    | nil => intro n h2; rfl
    | cons b t ih =>
      intro n h2
      have hb := h2 0 b rfl
      rw [Nat.add_zero] at hb
      have hcont : rem.contains n = p b := by
        rcases hc : rem.contains n with _ | _
        · rcases hp : p b with _ | _
          · rfl
          · refine absurd (List.elem_iff.2 (hb.2 hp)) ?_
            show ¬ rem.contains n = true
            rw [hc]
            exact Bool.false_ne_true
        · rcases hp : p b with _ | _
          · refine absurd (hb.1 (List.elem_iff.1 hc)) ?_
            rw [hp]
            exact Bool.false_ne_true
          · rfl
      rw [show (b :: t).enumFrom n = (n, b) :: t.enumFrom (n + 1) from rfl]
      have ht := ih (n + 1) (fun k b2 hk => by
        have h3 := h2 (k + 1) b2 hk
        rwa [show n + (k + 1) = n + 1 + k from by omega] at h3)
      rcases hp : p b with _ | _
      · have hL : List.filter (fun q => !rem.contains q.1) ((n, b) :: List.enumFrom (n + 1) t) =
            (n, b) :: List.filter (fun q => !rem.contains q.1) (List.enumFrom (n + 1) t) :=
          List.filter_cons_of_pos (show (!rem.contains n) = true from by rw [hcont, hp]; rfl)
        have hR : List.filter (fun b2 => !p b2) (b :: t) = b :: List.filter (fun b2 => !p b2) t :=
          List.filter_cons_of_pos (show (!p b) = true from by rw [hp]; rfl)
        rw [hL, hR, List.map_cons, ht]
      · have hL : List.filter (fun q => !rem.contains q.1) ((n, b) :: List.enumFrom (n + 1) t) =
            List.filter (fun q => !rem.contains q.1) (List.enumFrom (n + 1) t) :=
          List.filter_cons_of_neg (show ¬ (!rem.contains n) = true from by
            rw [hcont, hp]; exact Bool.false_ne_true)
        have hR : List.filter (fun b2 => !p b2) (b :: t) = List.filter (fun b2 => !p b2) t :=
          List.filter_cons_of_neg (show ¬ (!p b) = true from by
            rw [hp]; exact Bool.false_ne_true)
        rw [hL, hR]
        exact ht
  have hdef : removeIdxs bs rem =
      ((bs.enumFrom 0).filter (fun q => !rem.contains q.1)).map Prod.snd := rfl
  rw [hdef]
  exact key bs 0 (fun k b hk => by rw [Nat.zero_add]; exact h k b hk)

/-- A row each of whose cells is covered by some block is full in the
derived grid. -/
theorem fullRow_updateGrid {bs : List Block} {r : Nat} (hr : r < 20)
    (hfull : ∀ c : Nat, c < 10 → ∃ b ∈ bs, coversB b c r = true) :
    fullRow (updateGrid bs) r = true := by
  rw [fullRow_iff (updateGrid_spec bs (r := 0) (c := 0) (by omega) (by omega)).1 hr]
  intro c hc
  exact (updateGrid_spec bs hr hc).2.2.1 (hfull c hc)

/-- One step of the recursive re-scan: finding and clearing a full row,
then recursing on the cleared state. -/
theorem checkLineCompletion_step (fuel : Nat) {s s1 : GameState} {r : Nat}
    (h2 : singleClear s r = .ok s1)
    (h1 : firstFullRowFromBottom (updateGrid s.blocks) = some r) :
    checkLineCompletion (fuel + 1) s = checkLineCompletion fuel s1 := by
  have e1 : checkLineCompletion (fuel + 1) s =
      (match singleClear s r with
        | .error e => .error e
        | .ok s2 => checkLineCompletion fuel s2) := by
    simp only [checkLineCompletion, h1]
  rw [e1, h2]

/-- The re-scan stops when no row is full. -/
theorem checkLineCompletion_done (fuel : Nat) (s : GameState)
    (h1 : firstFullRowFromBottom (updateGrid s.blocks) = none) :
    checkLineCompletion (fuel + 1) s = .ok s := by
  simp only [checkLineCompletion, h1]

/-- `singleClear` on a board of disjoint flat one-row pieces sitting at
rows 18 and 19, clearing row 19: the scoring fields advance, exactly the
row-19 pieces are deleted (their single matrix row empties, so they are
removed rather than compacted), and the settling pass drops each surviving
row-18 piece one row onto the floor. -/
theorem flat_singleClear (s : GameState)
    (hflat : ∀ b ∈ s.blocks, FlatAt b 18 ∨ FlatAt b 19)
    (hdisj : List.Pairwise BDisj s.blocks)
    (hl : s.lines_completed + 1 < LINES_PER_LEVEL) :
    singleClear s 19 = .ok { s with
      score := s.score + 5, lines_completed := s.lines_completed + 1,
      blocks := (s.blocks.filter (fun b => !decide (b.y = (19 : Int)))).map shift19 } := by
  have hsh : GridShape (updateGrid s.blocks) :=
    (updateGrid_spec s.blocks (r := 0) (c := 0) (by omega) (by omega)).1
  have hall : ∀ p ∈ affectedOf (updateGrid s.blocks) 19, ∀ b,
      s.blocks.get? p.1 = some b → anyCell (deleteRow p.2 b.struct) = false := by
    intro p hp b hgb
    rcases affectedOf_mem hsh (by omega) hp with ⟨c, hc, hcell⟩
    rcases (updateGrid_spec s.blocks (r := 19) (c := c) (by omega) hc).2.1 p.1 p.2
        (by rw [hcell]) with ⟨b', hgb', hcov, hyoff⟩
    rw [hgb] at hgb'
    injection hgb' with hbe
    subst hbe
    have hbmem : b ∈ s.blocks := by
      rw [List.get?_eq_getElem?] at hgb
      exact List.getElem?_mem hgb
    rcases hflat b hbmem with hf | hf
    · exact absurd (flat_covers_row hf hcov) (by omega)
    · have hy : b.y = 19 := hf.2.2.2.2.2
      have hyoff0 : p.2 = 0 := by
        rw [hy] at hyoff
        omega
      have hlen : b.struct.length = 1 := hf.2.1
      rcases List.length_eq_one.1 hlen with ⟨row, hrow⟩
      rw [hyoff0, hrow]
      rfl
  have hPA := processAffected_allRemoved hall
  have hchar : ∀ i b, s.blocks.get? i = some b →
      (i ∈ (processAffected s.blocks (affectedOf (updateGrid s.blocks) 19)).2 ↔
        decide (b.y = (19 : Int)) = true) := by
    intro i b hgb
    have hbmem : b ∈ s.blocks := by
      rw [List.get?_eq_getElem?] at hgb
      exact List.getElem?_mem hgb
    rw [hPA.2 i]
    constructor
    · rintro ⟨p, hp, hpi, -⟩
      rcases affectedOf_mem hsh (by omega) hp with ⟨c, hc, hcell⟩
      rcases (updateGrid_spec s.blocks (r := 19) (c := c) (by omega) hc).2.1 p.1 p.2
          (by rw [hcell]) with ⟨b', hgb', hcov, hyoff⟩
      rw [hpi, hgb] at hgb'
      injection hgb' with hbe
      subst hbe
      rcases hflat b hbmem with hf | hf
      · exact absurd (flat_covers_row hf hcov) (by omega)
      · rw [hf.2.2.2.2.2]
        decide
    · intro hyd
      have hy : b.y = (19 : Int) := of_decide_eq_true hyd
      have hf : FlatAt b 19 := by
        rcases hflat b hbmem with hf | hf
        · exfalso
          have h18 := hf.2.2.2.2.2
          rw [hy] at h18
          exact absurd h18 (by omega)
        · exact hf
      rcases flat_covers_some hf (by omega) with ⟨c, hc, hcov⟩
      have hcov' : coversB b c 19 = true := hcov
      have hsome := (updateGrid_spec s.blocks (r := 19) (c := c) (by omega) hc).2.2.1
        ⟨b, hbmem, hcov'⟩
      rcases hv : gridCell (updateGrid s.blocks) 19 c with _ | v
      · rw [hv] at hsome
        simp at hsome
      rcases (updateGrid_spec s.blocks (r := 19) (c := c) (by omega) hc).2.1 v.1 v.2
          (by rw [hv]) with ⟨b2, hgb2, hcov2, hyoff2⟩
      have hieq : v.1 = i := by
        by_contra hne
        exact getIdx_disj hdisj hne hgb2 hgb ((c : Int), ((19 : Nat) : Int))
          (coversB_boardCells hcov2) (coversB_boardCells hcov')
      exact ⟨v, affectedOf_of_cell hv, hieq, b, by rw [hieq]; exact hgb⟩
  have hrem : removeIdxs s.blocks
      (processAffected s.blocks (affectedOf (updateGrid s.blocks) 19)).2 =
      s.blocks.filter (fun b => !decide (b.y = (19 : Int))) :=
    removeIdxs_filter _ hchar
  have hgrav : gravityPass (s.blocks.filter (fun b => !decide (b.y = (19 : Int)))) =
      (s.blocks.filter (fun b => !decide (b.y = (19 : Int)))).map shift19 :=
    flat_gravityPass (flat_filter_18 hflat) (hdisj.sublist (List.filter_sublist _))
  have hlc : levelCheck { s with
      score := s.score + 5, lines_completed := s.lines_completed + 1,
      blocks := s.blocks.filter (fun b => !decide (b.y = (19 : Int))) } =
      .ok { s with
        score := s.score + 5, lines_completed := s.lines_completed + 1,
        blocks := s.blocks.filter (fun b => !decide (b.y = (19 : Int))) } :=
    levelCheck_no_levelup hl
  simp only [singleClear]
  rw [hPA.1, hrem, hlc]
  show Except.ok { s with
      score := s.score + 5, lines_completed := s.lines_completed + 1,
      blocks := gravityPass (s.blocks.filter (fun b => !decide (b.y = (19 : Int)))) } =
    Except.ok { s with
      score := s.score + 5, lines_completed := s.lines_completed + 1,
      blocks := (s.blocks.filter (fun b => !decide (b.y = (19 : Int)))).map shift19 }
  rw [hgrav]

/-- The degenerate case of `flat_singleClear`: every piece lies flat on
row 19, so clearing row 19 empties the board. -/
theorem flat_singleClear19 (s : GameState)
    (hflat : ∀ b ∈ s.blocks, FlatAt b 19)
    (hdisj : List.Pairwise BDisj s.blocks)
    (hl : s.lines_completed + 1 < LINES_PER_LEVEL) :
    singleClear s 19 = .ok { s with
      score := s.score + 5, lines_completed := s.lines_completed + 1,
      blocks := [] } := by
  rw [flat_singleClear s (fun b hb => Or.inr (hflat b hb)) hdisj hl]
  have hf : s.blocks.filter (fun b => !decide (b.y = (19 : Int))) = [] := by
    rw [List.filter_eq_nil_iff]
    intro b hb
    show ¬ (!decide (b.y = (19 : Int))) = true
    rw [(hflat b hb).2.2.2.2.2]
    decide
  rw [hf]
  rfl

/-- C3 (amended): when the pieces filling two stacked full rows are flat
one-row pieces — every piece lies entirely on row 18 or on row 19, the
pieces are pairwise non-overlapping, and both rows are fully covered — the
clearance engine resolves the stack as two sequential single-row clears
through its recursive bottom-up re-scan: the scan finds row 19, the first
clear awards exactly 5 points and one line, the settling pass between the
clears drops every surviving row-18 piece onto the floor row, the re-scan
finds row 19 full again, and the second clear awards the remaining 5
points (10 in total) and empties the board.  The claim over arbitrary
stacked pieces is refuted by `c3_counterexample`: the settling pass
between the clears can wedge an overhanging piece on a piece yet to fall,
leaving the second row unfull, so only one clear (5 points) happens. -/
theorem c3_two_row_clear (fuel : Nat) (s : GameState)
    (hflat : ∀ b ∈ s.blocks, FlatAt b 18 ∨ FlatAt b 19)
    (hdisj : List.Pairwise (fun a b => overlaps a b = false) s.blocks)
    (hfull18 : ∀ c : Nat, c < 10 → ∃ b ∈ s.blocks, coversB b c 18 = true)
    (hfull19 : ∀ c : Nat, c < 10 → ∃ b ∈ s.blocks, coversB b c 19 = true)
    (hlines : s.lines_completed + 2 < LINES_PER_LEVEL) :
    firstFullRowFromBottom (updateGrid s.blocks) = some 19 ∧
    ∃ s1, singleClear s 19 = .ok s1 ∧
      s1.score = s.score + 5 ∧ s1.lines_completed = s.lines_completed + 1 ∧
      s1.blocks = (s.blocks.filter (fun b => !decide (b.y = (19 : Int)))).map shift19 ∧
      firstFullRowFromBottom (updateGrid s1.blocks) = some 19 ∧
      ∃ s2, singleClear s1 19 = .ok s2 ∧
        s2.score = s.score + 10 ∧ s2.lines_completed = s.lines_completed + 2 ∧
        s2.blocks = [] ∧
        checkLineCompletion (fuel + 3) s = .ok s2 := by
  have hdisjB : List.Pairwise BDisj s.blocks :=
    hdisj.imp (fun h => bdisj_of_overlaps_false h)
  have hfirst : firstFullRowFromBottom (updateGrid s.blocks) = some 19 :=
    firstFullRow_19 (fullRow_updateGrid (by omega) hfull19)
  have hL : LINES_PER_LEVEL = 10 := rfl
  have hsc1 := flat_singleClear s hflat hdisjB (by omega)
  have hsurv18 : ∀ b ∈ s.blocks.filter (fun b => !decide (b.y = (19 : Int))), FlatAt b 18 :=
    flat_filter_18 hflat
  have hflat19 : ∀ b ∈ (s.blocks.filter (fun b => !decide (b.y = (19 : Int)))).map shift19,
      FlatAt b 19 := by
    intro b hb
    rcases List.mem_map.1 hb with ⟨b0, hb0, rfl⟩
    exact shift19_flatAt (hsurv18 b0 hb0)
  have hdisj1 : List.Pairwise BDisj
      ((s.blocks.filter (fun b => !decide (b.y = (19 : Int)))).map shift19) := by
    rw [List.pairwise_map]
    refine List.Pairwise.imp_of_mem ?_ (hdisjB.sublist (List.filter_sublist _))
    intro a b ha hb h
    exact shift19_bdisj (hsurv18 a ha) (hsurv18 b hb) h
  have hfull19x : ∀ c : Nat, c < 10 →
      ∃ b ∈ (s.blocks.filter (fun b => !decide (b.y = (19 : Int)))).map shift19,
        coversB b c 19 = true := by
    intro c hc
    rcases hfull18 c hc with ⟨b, hbmem, hcov⟩
    have hf : FlatAt b 18 := by
      rcases hflat b hbmem with hf | hf
      · exact hf
      · exact absurd (flat_covers_row hf hcov) (by omega)
    refine ⟨shift19 b, List.mem_map.2 ⟨b, ?_, rfl⟩, shift19_covers hf hcov⟩
    rw [List.mem_filter]
    refine ⟨hbmem, ?_⟩
    show (!decide (b.y = (19 : Int))) = true
    rw [hf.2.2.2.2.2]
    decide
  have hfirst1 : firstFullRowFromBottom (updateGrid
      ((s.blocks.filter (fun b => !decide (b.y = (19 : Int)))).map shift19)) = some 19 :=
    firstFullRow_19 (fullRow_updateGrid (by omega) hfull19x)
  have hsc2 := flat_singleClear19
    { s with
      score := s.score + 5, lines_completed := s.lines_completed + 1,
      blocks := (s.blocks.filter (fun b => !decide (b.y = (19 : Int)))).map shift19 }
    hflat19 hdisj1 (by show s.lines_completed + 1 + 1 < LINES_PER_LEVEL; omega)
  refine ⟨hfirst, _, hsc1, rfl, rfl, rfl, hfirst1, _, hsc2, ?_, ?_, ?_, ?_⟩
  · show s.score + 5 + 5 = s.score + 10
    omega
  · show s.lines_completed + 1 + 1 = s.lines_completed + 2
    omega
  · rfl
  · rw [show fuel + 3 = (fuel + 2) + 1 from rfl,
      checkLineCompletion_step (fuel + 2) hsc1 hfirst,
      show fuel + 2 = (fuel + 1) + 1 from rfl,
      checkLineCompletion_step (fuel + 1) hsc2 hfirst1]
    exact checkLineCompletion_done fuel _ (by rfl)

/-- Two stacked full rows made of flat pieces: a 4-wide and a 6-wide piece
filling row 18, a 10-wide piece filling row 19. -/
def c3State : GameState :=
  { blocks := [
      { struct := [[true, true, true, true]], x := 0, y := 18, current := false },
      { struct := [[true, true, true, true, true, true]], x := 4, y := 18, current := false },
      { struct := [[true, true, true, true, true, true, true, true, true, true]],
        x := 0, y := 19, current := false }],
    score := 0, lines_completed := 0, level := 1, speed := 800 }

/-- C3 witness: on `c3State` the engine performs exactly two single-row
clears of row 19 with the settling pass in between, scoring 10. -/
theorem c3_two_row_clear_witness :
    firstFullRowFromBottom (updateGrid c3State.blocks) = some 19 ∧
    ∃ s1, singleClear c3State 19 = .ok s1 ∧
      s1.score = c3State.score + 5 ∧ s1.lines_completed = c3State.lines_completed + 1 ∧
      s1.blocks = (c3State.blocks.filter (fun b => !decide (b.y = (19 : Int)))).map shift19 ∧
      firstFullRowFromBottom (updateGrid s1.blocks) = some 19 ∧
      ∃ s2, singleClear s1 19 = .ok s2 ∧
        s2.score = c3State.score + 10 ∧ s2.lines_completed = c3State.lines_completed + 2 ∧
        s2.blocks = [] ∧
        checkLineCompletion (2 + 3) c3State = .ok s2 :=
  c3_two_row_clear 2 c3State (by decide) (by decide) (by decide) (by decide) (by decide)

end Tetris
